import Mathlib

/-!
Verification of the view-application engine of `easylogger`
(`src/easylogger/view_engine.py`, configuration model in
`src/easylogger/models.py`).

The engine is a pure transformation `apply_view(records, view) -> Table`
composed of the stages: normalize -> compute -> order/hide -> sort -> format.
Every definition below is a shallow embedding of the corresponding Python
function, translated line by line from the source.  Python `dict`s holding
row data become association lists with Python's update-in-place / append-at-end
semantics; Python scalars become the `Value` type; Python floats are modelled
as exact decimals (integer numerator over a power of ten) plus an explicit
NaN — the claims under verification do not depend on binary64 rounding; the
regex `^[+-]?(?:\d+(?:\.\d*)?|\.\d+)$` from `view_engine.py` line 10 becomes
the decidable predicate `numericRe` (with `\d` read as the ASCII digits, the
only digits the repository's data uses).

Two primitives of the Python runtime are not part of the repository and enter
the model as parameters: the `eval` builtin used for computed columns
(`view_engine.py` line 65) and `str.format` used for display formatting
(`view_engine.py` line 124).
-/

/-- An exact decimal number `num / 10 ^ exp`.  This represents the finite
floats the engine manipulates; comparisons are by mathematical value. -/
structure Dec where
  num : ℤ
  exp : ℕ
deriving DecidableEq

/-- The rational value of a decimal. -/
def Dec.toRat (d : Dec) : ℚ :=
  (d.num : ℚ) / ((10 : ℚ) ^ d.exp)

/-- Value comparison of decimals by cross multiplication (kernel-computable:
pure integer arithmetic). -/
def Dec.le (a b : Dec) : Bool :=
  decide (a.num * (10 : ℤ) ^ b.exp ≤ b.num * (10 : ℤ) ^ a.exp)

/-- A Python float: either a finite value (an exact decimal) or NaN.
`view_engine.py` only ever produces finite floats from the numeric literal
regex; NaN can arrive inside record data or from a computed column. -/
inductive PyFloat where
  | finite (d : Dec)
  | nan
deriving DecidableEq

/-- A scalar record value as produced by the scanner and manipulated by the
engine: null, boolean, integer, float or string. -/
inductive Value where
  | none
  | bool (b : Bool)
  | int (n : ℤ)
  | float (f : PyFloat)
  | str (s : String)
deriving DecidableEq

/-- A row: a Python `dict` mapping field names to scalar values, modelled as
an association list in insertion order. -/
abbrev Row := List (String × Value)

/-- `d[k]` lookup returning `Option`: the first binding of `k`. -/
def dictGet : Row → String → Option Value
  | [], _ => Option.none
  | p :: rest, k => if p.1 == k then some p.2 else dictGet rest k

/-- Python `row.get(k)`: missing keys read as `None`. -/
def pyGet (r : Row) (k : String) : Value :=
  (dictGet r k).getD Value.none

/-- Python `d[k] = v`: update the existing binding in place, else append a new
binding at the end (dict insertion-order semantics). -/
def dictSet : Row → String → Value → Row
  | [], k, v => [(k, v)]
  | p :: rest, k, v =>
      if p.1 == k then (k, v) :: rest else p :: dictSet rest k v

/-- Python `d.setdefault(k, v)`: insert `(k, v)` at the end only when `k` is
absent. -/
def dictSetDefault (r : Row) (k : String) (v : Value) : Row :=
  if (dictGet r k).isSome then r else r ++ [(k, v)]

/-- The keys of a row, in insertion order. -/
def rowKeys (r : Row) : List String :=
  r.map Prod.fst

/-- Python `str.strip()`: remove leading and trailing whitespace. -/
def pyStrip (s : String) : String :=
  ⟨((s.data.dropWhile Char.isWhitespace).reverse.dropWhile Char.isWhitespace).reverse⟩

/-- The anchored numeric-literal regex `^[+-]?(?:\d+(?:\.\d*)?|\.\d+)$`
(`view_engine.py` line 10), as a whole-string match on a character list. -/
def numericRe (cs : List Char) : Bool :=
  let body := match cs with
    | c :: rest => if c == '+' || c == '-' then rest else cs
    | [] => []
  let ds := body.takeWhile Char.isDigit
  let rest := body.dropWhile Char.isDigit
  if ds.isEmpty then
    match body with
    | '.' :: frac => !frac.isEmpty && frac.all Char.isDigit
    | _ => false
  else
    match rest with
    | [] => true
    | '.' :: frac => frac.all Char.isDigit
    | _ => false

/-- Digits to the natural number they denote in base 10. -/
def digitsToNat (cs : List Char) : ℕ :=
  cs.foldl (fun n c => 10 * n + (c.toNat - '0'.toNat)) 0

/-- Python `float(s)` on a string accepted by `numericRe`: the exact decimal
value (sign, integer part, fractional part). -/
def parseDecChars (cs : List Char) : Dec :=
  let signed := match cs with
    | '-' :: rest => (true, rest)
    | '+' :: rest => (false, rest)
    | _ => (false, cs)
  let ip := signed.2.takeWhile Char.isDigit
  let fp := match signed.2.dropWhile Char.isDigit with
    | '.' :: frac => frac
    | _ => []
  let mag : ℤ := (digitsToNat ip : ℤ) * (10 : ℤ) ^ fp.length + (digitsToNat fp : ℤ)
  ⟨if signed.1 then -mag else mag, fp.length⟩

/-- Python `int(s)` on a signed digit string. -/
def parseIntChars (cs : List Char) : ℤ :=
  match cs with
  | '-' :: rest => -(digitsToNat rest : ℤ)
  | '+' :: rest => (digitsToNat rest : ℤ)
  | _ => (digitsToNat cs : ℤ)

/-- Python `str(value)` for the values the engine stringifies.  Finite floats
never reach a `str()` call in the engine (they always take the numeric sort
tier), so their branch only records that Python would print a decimal form. -/
def pyStrOf : Value → String
  | Value.none => "None"
  | Value.bool true => "True"
  | Value.bool false => "False"
  | Value.int n => toString n
  | Value.float (PyFloat.finite d) => toString d.num ++ "e-" ++ toString d.exp
  | Value.float PyFloat.nan => "nan"
  | Value.str s => s

/-- `_to_float` (`view_engine.py` lines 153-162): numeric coercion for the
sort key.  Booleans are explicitly excluded; strings are stripped and matched
against `numericRe` first. -/
def to_float (v : Value) : Option PyFloat :=
  match v with
  | Value.bool _ => Option.none
  | Value.int n => some (PyFloat.finite ⟨n, 0⟩)
  | Value.float f => some f
  | Value.str s =>
      let stripped := pyStrip s
      if numericRe stripped.data then some (PyFloat.finite (parseDecChars stripped.data)) else Option.none
  | Value.none => Option.none

/-- The tri-level sort key produced by `_sortable_value`: tier 0 numeric,
tier 1 string, tier 2 null.  The numeric tier carries a finite decimal, so a
NaN key is unrepresentable by construction. -/
inductive SortKey where
  | num (d : Dec)
  | str (s : String)
  | nullKey
deriving DecidableEq

/-- `_sortable_value` (`view_engine.py` lines 142-150): numeric tier for
non-NaN numbers, null tier for `None`, string tier (via `str(value)`) for
everything else — including NaN, which the `math.isnan` guard routes here. -/
def sortable_value (v : Value) : SortKey :=
  match to_float v with
  | some (PyFloat.finite d) => SortKey.num d
  | _ =>
      match v with
      | Value.none => SortKey.nullKey
      | _ => SortKey.str (pyStrOf v)

/-- Lexicographic code-point comparison of character lists, mirroring Python
string `<=`. -/
def charListLE : List Char → List Char → Bool
  | [], _ => true
  | _ :: _, [] => false
  | a :: as, b :: bs =>
      if a.toNat < b.toNat then true
      else if b.toNat < a.toNat then false
      else charListLE as bs

/-- Python string `<=` on the underlying code points. -/
def strLE (a b : String) : Bool :=
  charListLE a.data b.data

/-- Comparison of sort-key tuples as Python compares `(tier, value)` pairs:
tier first, then the value (decimals numerically, strings lexicographically;
all null keys are equal). -/
def keyLE : SortKey → SortKey → Bool
  | SortKey.num a, SortKey.num b => Dec.le a b
  | SortKey.num _, _ => true
  | _, SortKey.num _ => false
  | SortKey.str a, SortKey.str b => strLE a b
  | SortKey.str _, SortKey.nullKey => true
  | SortKey.nullKey, SortKey.str _ => false
  | SortKey.nullKey, SortKey.nullKey => true

example : numericRe " 12 ".data = false := by decide
example : numericRe "12".data = true := by decide
example : numericRe "+1.5".data = true := by decide
example : numericRe ".5".data = true := by decide
example : numericRe "12.".data = true := by decide
example : numericRe "1e5".data = false := by decide
example : parseDecChars "100".data = ⟨100, 0⟩ := by decide
example : parseDecChars "-1.5".data = ⟨-15, 1⟩ := by decide
example : sortable_value (Value.str " 10 ") = SortKey.num ⟨10, 0⟩ := by decide
example : sortable_value (Value.float PyFloat.nan) = SortKey.str "nan" := by decide
example : sortable_value (Value.bool true) = SortKey.str "True" := by decide
example : keyLE (SortKey.num ⟨2, 0⟩) (SortKey.num ⟨10, 0⟩) = true := by decide
example : keyLE (SortKey.num ⟨15, 1⟩) (SortKey.num ⟨2, 0⟩) = true := by decide
example : keyLE (SortKey.str "10") (SortKey.str "2") = true := by decide
example : keyLE (SortKey.str "zz") SortKey.nullKey = true := by decide

/-- `ComputedColumn` (`models.py` lines 9-18): a column name and a
user-supplied Python expression string. -/
structure ComputedColumn where
  name : String
  expr : String
deriving DecidableEq

/-- `SortConfig` (`models.py` lines 39-41).  The source field `by` is a Lean
keyword, so it is called `sortBy` here. -/
structure SortConfig where
  sortBy : Option String
  direction : String
deriving DecidableEq

/-- `RowConfig` (`models.py` lines 44-46). -/
structure RowConfig where
  pinned_ids : List String
  sort : SortConfig
deriving DecidableEq

/-- `ColumnConfig` (`models.py` lines 21-36): order, hidden, alias and
computed columns, plus the display-format mapping.  The source field `alias`
is a Lean keyword, so it is called `aliasMap` here (the engine never reads
it).

The `format` field is Modelled from the spec: `models.py` does not declare a
`format` field on `ColumnConfig`, although spec section 3 specifies
"`format`: mapping column name → a display-format template string", the
persisted view shape in spec section 6 includes `"format": {str:str}`, the
engine reads `view.columns.format` (`view_engine.py` line 114), the default
view template writes a `"format": {}` entry (`view_store.py` line 46), and
the repository's tests exercise it throughout. -/
structure ColumnConfig where
  order : List String
  hidden : List String
  aliasMap : List (String × String)
  computed : List ComputedColumn
  format : List (String × String)
deriving DecidableEq

/-- `ViewConfig` (`models.py` lines 49-74). -/
structure ViewConfig where
  name : String
  pattern : String
  columns : ColumnConfig
  rows : RowConfig
deriving DecidableEq

/-- `TableResult` (`view_engine.py` lines 13-17). -/
structure TableResult where
  all_columns : List String
  visible_columns : List String
  rows : List Row
deriving DecidableEq

/-- The ambient Python evaluation environment for computed-column
expressions.  `_apply_computed_columns` calls
`eval(computed.expr, {"__builtins__": __builtins__}, {"row": row})`
(`view_engine.py` lines 57 and 65): the locals scope exposes only the row,
but the globals scope hands the expression the full `__builtins__` module —
`open`, `__import__`, and through them the process state and filesystem.
`evalExpr` is therefore a parameter of the model: one `EvalEnv` value fixes
the behaviour of `eval` at one moment of one process, and two distinct
`EvalEnv` values model two ambient process states in which the same
expression may evaluate differently.  A raising evaluation is an
`Except.error` carrying `str(exc)`. -/
structure EvalEnv where
  evalExpr : String → Row → Except String Value

/-- Python `template.format(d=value)` (`view_engine.py` line 124) as a
parameter of the model: the format mini-language is a Python runtime
facility, not repository code.  An application failure is an `Except.error`
carrying `str(exc)`. -/
abbrev FormatOracle := String → Value → Except String String

/-- `_normalize_rows`, first loop body (`view_engine.py` lines 38-41):
`dict(record)` copies the record, then `copied.setdefault("path", None)`. -/
def copyRecord (record : Row) : Row :=
  dictSetDefault record "path" Value.none

/-- `_normalize_rows` key discovery (`view_engine.py` lines 34-35, 43-47):
the discovered-column list is seeded with `"path"` and collects every key of
every copied row in first-seen order. -/
def collectColumns (rows : List Row) : List String :=
  rows.foldl
    (fun cols r =>
      r.foldl (fun cols p => if cols.contains p.1 then cols else cols ++ [p.1]) cols)
    ["path"]

/-- `_normalize_rows` backfill (`view_engine.py` lines 49-51): give every row
a `None` default for every discovered column it lacks. -/
def backfillRow (cols : List String) (r : Row) : Row :=
  cols.foldl (fun r c => dictSetDefault r c Value.none) r

/-- `_normalize_rows` (`view_engine.py` lines 33-53). -/
def normalize_rows (records : List Row) : List Row × List String :=
  let copied := records.map copyRecord
  let discovered := collectColumns copied
  (copied.map (backfillRow discovered), discovered)

/-- The value a computed column writes for one row (`view_engine.py`
lines 63-68): the evaluation result, or `"ERROR: <message>"` when the
evaluation raises. -/
def evalCell (env : EvalEnv) (c : ComputedColumn) (r : Row) : Value :=
  match env.evalExpr c.expr r with
  | Except.ok v => v
  | Except.error m => Value.str ("ERROR: " ++ m)

/-- `_apply_computed_columns` (`view_engine.py` lines 56-68): for each
computed column in configured order, append its name to the column list if
absent, then write its per-row value into every row. -/
def apply_computed_columns (env : EvalEnv) (cs : List ComputedColumn)
    (rows : List Row) (all_columns : List String) : List Row × List String :=
  cs.foldl
    (fun acc c =>
      let cols := if acc.2.contains c.name then acc.2 else acc.2 ++ [c.name]
      let rows := acc.1.map (fun r => dictSet r c.name (evalCell env c r))
      (rows, cols))
    (rows, all_columns)

/-- The column list produced by the computed stage (independent of row data
and of the evaluation environment). -/
def columnsWithComputed (cs : List ComputedColumn) (cols : List String) : List String :=
  cs.foldl (fun cols c => if cols.contains c.name then cols else cols ++ [c.name]) cols

/-- `_ordered_columns` (`view_engine.py` lines 71-86): configured-order
entries that exist in the column set, deduplicated by a `seen` set, followed
by the remaining columns in discovery order. -/
def ordered_columns (configured_order all_columns : List String) : List String :=
  let step1 := configured_order.foldl
    (fun (acc : List String × List String) c =>
      if all_columns.contains c && !acc.2.contains c then (acc.1 ++ [c], acc.2 ++ [c]) else acc)
    ([], [])
  let step2 := all_columns.foldl
    (fun (acc : List String × List String) c =>
      if acc.2.contains c then acc else (acc.1 ++ [c], acc.2 ++ [c]))
    step1
  step2.1

/-- Stable insertion of `a` into `l`: `a` goes in front of the first element
`b` with `le a b`, hence after every earlier element it ties with.  This is
the standard stable insertion step; Python's `list.sort` is stable, and a
stable sort's output is uniquely determined by the key order and the input
order, so insertion sort is a faithful model of it. -/
def insLe (le : α → α → Bool) (a : α) : List α → List α
  | [] => [a]
  | b :: l => if le a b then a :: b :: l else b :: insLe le a l

/-- Stable insertion sort: the model of Python `list.sort(key=...)`. -/
def isortBy (le : α → α → Bool) : List α → List α
  | [] => []
  | a :: l => insLe le a (isortBy le l)

/-- `pinned_index` (`view_engine.py` line 91): the dict comprehension maps
each pinned id to its enumeration index, later duplicates overwriting
earlier ones; ids not in the list read as 0 (never queried). -/
def pinnedIdx (pinned_ids : List String) (s : String) : ℕ :=
  (pinned_ids.enum.foldl (fun acc p => if p.2 == s then p.1 else acc) 0)

/-- Whether `_sort_rows` classifies a row as pinned (`view_engine.py`
lines 96-101): its `path` value is a string occurring in `pinned_ids`. -/
def rowPinned (pinned_ids : List String) (r : Row) : Bool :=
  match pyGet r "path" with
  | Value.str s => pinned_ids.contains s
  | _ => false

/-- The `path` of a pinned row as a string (pinned rows always have a string
path; other rows never reach this accessor). -/
def rowPathStr (r : Row) : String :=
  match pyGet r "path" with
  | Value.str s => s
  | _ => ""

/-- Row comparison used for the non-pinned sort: the tri-level key of the
sort column's value (`view_engine.py` line 108). -/
def rowSortLe (field : String) (r s : Row) : Bool :=
  keyLE (sortable_value (pyGet r field)) (sortable_value (pyGet s field))

/-- `_sort_rows` (`view_engine.py` lines 89-110): split into pinned and
other rows preserving input order, sort the pinned rows by their
`pinned_index` position, sort the other rows by the tri-level key when a
sort field is configured (empty string is falsy in `if sort_field:`),
descending as the stable reverse sort, and concatenate. -/
def sort_rows (view : ViewConfig) (rows : List Row) : List Row :=
  let pids := view.rows.pinned_ids
  let pinned := rows.filter (fun r => rowPinned pids r)
  let other := rows.filter (fun r => !rowPinned pids r)
  let pinnedSorted :=
    isortBy (fun r s => Nat.ble (pinnedIdx pids (rowPathStr r)) (pinnedIdx pids (rowPathStr s))) pinned
  let otherSorted := match view.rows.sort.sortBy with
    | Option.none => other
    | some field =>
        if field == "" then other
        else if view.rows.sort.direction == "desc" then
          isortBy (fun r s => rowSortLe field s r) other
        else
          isortBy (fun r s => rowSortLe field r s) other
  pinnedSorted ++ otherSorted

/-- `_coerce_format_value` (`view_engine.py` lines 129-139): a string whose
stripped form matches the numeric regex is coerced — to an int when the
stripped form has no decimal point (the `int()` call cannot fail there, so
the `except ValueError` fallback is dead), to a float otherwise; everything
else passes through unchanged. -/
def coerce_format_value (v : Value) : Value :=
  match v with
  | Value.str s =>
      let stripped := pyStrip s
      if numericRe stripped.data then
        if stripped.data.contains '.' then Value.float (PyFloat.finite (parseDecChars stripped.data))
        else Value.int (parseIntChars stripped.data)
      else v
  | _ => v

/-- `template.format(d=_coerce_format_value(value))` with the error policy of
`view_engine.py` lines 123-126: a raising application becomes the cell value
`"FORMAT_ERROR: <message>"`. -/
def applyTemplate (fmt : FormatOracle) (tmpl : String) (v : Value) : Value :=
  match fmt tmpl (coerce_format_value v) with
  | Except.ok s => Value.str s
  | Except.error m => Value.str ("FORMAT_ERROR: " ++ m)

/-- The inner loop body of `_apply_display_formats` (`view_engine.py`
lines 117-126) for one cell: skip rows lacking the column and null values,
else replace the cell by the template application. -/
def formatCellInRow (fmt : FormatOracle) (colName tmpl : String) (r : Row) : Row :=
  match dictGet r colName with
  | Option.none => r
  | some Value.none => r
  | some v => dictSet r colName (applyTemplate fmt tmpl v)

/-- `_apply_display_formats` (`view_engine.py` lines 113-126): for each
format entry with a non-empty template, rewrite that column in every row. -/
def apply_display_formats (fmt : FormatOracle) (fmtMap : List (String × String))
    (rows : List Row) : List Row :=
  fmtMap.foldl
    (fun rows p =>
      if p.2 == "" then rows
      else rows.map (formatCellInRow fmt p.1 p.2))
    rows

/-- The per-row restatement of the formatting stage (columns processed in
the same order for each row). -/
def formatRow (fmt : FormatOracle) (fmtMap : List (String × String)) (r : Row) : Row :=
  fmtMap.foldl
    (fun r p => if p.2 == "" then r else formatCellInRow fmt p.1 p.2 r)
    r

/-- `apply_view` (`view_engine.py` lines 20-30): normalize, apply computed
columns, order and hide columns, sort, format. -/
def apply_view (env : EvalEnv) (fmt : FormatOracle) (records : List Row)
    (view : ViewConfig) : TableResult :=
  let normalized := normalize_rows records
  let computed := apply_computed_columns env view.columns.computed normalized.1 normalized.2
  let ordered := ordered_columns view.columns.order computed.2
  let visible := ordered.filter (fun c => !view.columns.hidden.contains c)
  let sortedRows := sort_rows view computed.1
  let formatted := apply_display_formats fmt view.columns.format sortedRows
  ⟨ordered, visible, formatted⟩

/-- An evaluation environment in which every expression raises (models a
process where the expressions reference undefined names); used in concrete
instances that have no computed columns to run. -/
def noEval : EvalEnv :=
  ⟨fun _ _ => Except.error "name not defined"⟩

/-- An evaluation environment in which every expression returns the fixed
value `v`: the snapshot of a process whose ambient state (reachable through
`__builtins__`, e.g. a file read by the expression) currently yields `v`. -/
def constEval (v : Value) : EvalEnv :=
  ⟨fun _ _ => Except.ok v⟩

/-- A partial model of Python `str.format` covering the template strings the
concrete instances below use:
`{d}` renders the substituted value with `str()`;
`{d:.2}` is the string-precision spec — it truncates a string to its first
two characters and raises on non-string values;
any other template raises.  (Both behaviours are Python's: precision on a
`str` argument truncates, and precision on an `int` argument raises
`ValueError`.) -/
def pyFormatD : FormatOracle := fun tmpl v =>
  if tmpl == "\x7bd\x7d" then Except.ok (pyStrOf v)
  else if tmpl == "\x7bd:.2\x7d" then
    match v with
    | Value.str s => Except.ok ⟨s.data.take 2⟩
    | _ => Except.error "Precision not allowed in integer format specifier"
  else Except.error "unsupported format string"

example :
    apply_view noEval pyFormatD
      [[("path", Value.str "c"), ("step", Value.str "100")],
       [("path", Value.str "a"), ("step", Value.str "10")],
       [("path", Value.str "b"), ("step", Value.str "2")]]
      ⟨"demo", ".*", ⟨["path", "score", "step"], ["step"], [], [], []⟩,
        ⟨["c"], ⟨some "step", "asc"⟩⟩⟩ =
    ⟨["path", "step"], ["path"],
      [[("path", Value.str "c"), ("step", Value.str "100")],
       [("path", Value.str "b"), ("step", Value.str "2")],
       [("path", Value.str "a"), ("step", Value.str "10")]]⟩ := by
  decide

example :
    apply_view noEval pyFormatD
      [[("path", Value.str "a"), ("loss", Value.float (PyFloat.finite ⟨9, 1⟩))],
       [("path", Value.str "b")]]
      ⟨"demo", ".*", ⟨["path"], [], [], [], [("loss", "\x7bd\x7d")]⟩,
        ⟨[], ⟨Option.none, "asc"⟩⟩⟩ =
    ⟨["path", "loss"], ["path", "loss"],
      [[("path", Value.str "a"), ("loss", Value.str "9e-1")],
       [("path", Value.str "b"), ("loss", Value.none)]]⟩ := by
  decide

theorem dictGet_dictSet_self (r : Row) (k : String) (v : Value) :
    dictGet (dictSet r k v) k = some v := by
  induction r with
  | nil => simp [dictSet, dictGet]
  | cons p rest ih =>
      by_cases h : p.1 = k
      · simp [dictSet, dictGet, h]
      · simp [dictSet, dictGet, h, ih]

theorem dictGet_dictSet_ne (r : Row) (k k' : String) (v : Value) (h : k' ≠ k) :
    dictGet (dictSet r k v) k' = dictGet r k' := by
  have h' : ¬ k = k' := fun hh => h hh.symm
  induction r with
  | nil => simp [dictSet, dictGet, h']
  | cons p rest ih =>
      by_cases hp : p.1 = k
      · simp [dictSet, dictGet, hp, h']
      · simp [dictSet, dictGet, hp, ih]

theorem rowKeys_dictSet_of_mem (r : Row) (k : String) (v : Value)
    (h : k ∈ rowKeys r) : rowKeys (dictSet r k v) = rowKeys r := by
  induction r with
  | nil => simp [rowKeys] at h
  | cons p rest ih =>
      by_cases hp : p.1 = k
      · simp [dictSet, rowKeys, hp]
      · have hk : k ∈ rowKeys rest := by
          rcases (by simpa [rowKeys] using h) with h1 | h1
          · exact absurd h1.symm hp
          · simpa [rowKeys] using h1
        have h2 := ih hk
        simp only [rowKeys] at h2
        simp [dictSet, rowKeys, hp, h2]

theorem dictSet_eq_append (r : Row) (k : String) (v : Value)
    (h : k ∉ rowKeys r) : dictSet r k v = r ++ [(k, v)] := by
  induction r with
  | nil => simp [dictSet]
  | cons p rest ih =>
      have hp : ¬ p.1 = k := by
        intro hh
        exact h (by simp [rowKeys, hh])
      have hr : k ∉ rowKeys rest := by
        intro hh
        exact h (by simp [rowKeys] at hh ⊢; exact Or.inr hh)
      simp [dictSet, hp, ih hr]

theorem mem_rowKeys_dictSet (r : Row) (k k' : String) (v : Value) :
    k' ∈ rowKeys (dictSet r k v) ↔ k' = k ∨ k' ∈ rowKeys r := by
  by_cases h : k ∈ rowKeys r
  · rw [rowKeys_dictSet_of_mem r k v h]
    constructor
    · exact Or.inr
    · rintro (h1 | h1)
      · exact h1 ▸ h
      · exact h1
  · rw [dictSet_eq_append r k v h]
    simp [rowKeys]
    tauto

theorem dictGet_isSome_iff_mem (r : Row) (k : String) :
    (dictGet r k).isSome ↔ k ∈ rowKeys r := by
  induction r with
  | nil => simp [dictGet, rowKeys]
  | cons p rest ih =>
      by_cases hp : p.1 = k
      · simp [dictGet, rowKeys, hp]
      · have hp' : ¬ k = p.1 := fun hh => hp hh.symm
        simp only [dictGet, beq_iff_eq, hp, if_false, rowKeys, List.map_cons,
          List.mem_cons]
        simp only [rowKeys] at ih
        rw [ih]
        tauto

theorem dictGet_append_left (r r' : Row) (k : String) (h : k ∈ rowKeys r) :
    dictGet (r ++ r') k = dictGet r k := by
  induction r with
  | nil => simp [rowKeys] at h
  | cons p rest ih =>
      by_cases hp : p.1 = k
      · simp [dictGet, hp]
      · have hk : k ∈ rowKeys rest := by
          rcases (by simpa [rowKeys] using h) with h1 | h1
          · exact absurd h1.symm hp
          · simpa [rowKeys] using h1
        simp [dictGet, hp, ih hk]

theorem dictGet_dictSetDefault_of_some (r : Row) (k k' : String) (v v' : Value)
    (h : dictGet r k' = some v') : dictGet (dictSetDefault r k v) k' = some v' := by
  unfold dictSetDefault
  by_cases hs : (dictGet r k).isSome
  · simp [hs, h]
  · have hk : k' ∈ rowKeys r := by
      have : (dictGet r k').isSome := by simp [h]
      exact (dictGet_isSome_iff_mem r k').1 this
    simp [hs, dictGet_append_left r [(k, v)] k' hk, h]

theorem mem_rowKeys_dictSetDefault (r : Row) (k k' : String) (v : Value) :
    k' ∈ rowKeys (dictSetDefault r k v) ↔ k' = k ∨ k' ∈ rowKeys r := by
  unfold dictSetDefault
  by_cases hs : (dictGet r k).isSome
  · have hk : k ∈ rowKeys r := (dictGet_isSome_iff_mem r k).1 hs
    simp only [hs, if_true]
    constructor
    · exact Or.inr
    · rintro (h1 | h1)
      · exact h1 ▸ hk
      · exact h1
  · simp [hs, rowKeys]
    tauto

theorem dictGet_dictSetDefault_self (r : Row) (k : String) (v : Value) :
    (dictGet (dictSetDefault r k v) k).isSome := by
  rw [dictGet_isSome_iff_mem, mem_rowKeys_dictSetDefault]
  exact Or.inl rfl

theorem length_insLe (le : α → α → Bool) (a : α) (l : List α) :
    (insLe le a l).length = l.length + 1 := by
  induction l with
  | nil => simp [insLe]
  | cons b l ih =>
      by_cases h : le a b
      · simp [insLe, h]
      · simp [insLe, h, ih]

theorem perm_insLe (le : α → α → Bool) (a : α) (l : List α) :
    List.Perm (insLe le a l) (a :: l) := by
  induction l with
  | nil => simp [insLe]
  | cons b l ih =>
      by_cases h : le a b
      · simp [insLe, h]
      · simp only [insLe, h, if_false]
        exact (ih.cons b).trans (List.Perm.swap a b l)

theorem perm_isortBy (le : α → α → Bool) (l : List α) :
    List.Perm (isortBy le l) l := by
  induction l with
  | nil => simp [isortBy]
  | cons a l ih =>
      exact (perm_insLe le a (isortBy le l)).trans (ih.cons a)

theorem mem_insLe (le : α → α → Bool) (a b : α) (l : List α) :
    b ∈ insLe le a l ↔ b = a ∨ b ∈ l := by
  rw [(perm_insLe le a l).mem_iff]
  simp

theorem mem_isortBy (le : α → α → Bool) (a : α) (l : List α) :
    a ∈ isortBy le l ↔ a ∈ l :=
  (perm_isortBy le l).mem_iff

theorem length_isortBy (le : α → α → Bool) (l : List α) :
    (isortBy le l).length = l.length :=
  (perm_isortBy le l).length_eq

theorem pairwise_insLe (le : α → α → Bool) (a : α) (l : List α)
    (htot : ∀ x y, le x y = true ∨ le y x = true)
    (htrans : ∀ x y z, le x y = true → le y z = true → le x z = true)
    (hl : l.Pairwise (fun x y => le x y = true)) :
    (insLe le a l).Pairwise (fun x y => le x y = true) := by
  induction l with
  | nil => simp [insLe]
  | cons b l ih =>
      rcases List.pairwise_cons.1 hl with ⟨hb, hl'⟩
      by_cases h : le a b
      · simp only [insLe, h, if_true]
        refine List.pairwise_cons.2 ⟨?_, hl⟩
        intro x hx
        rcases List.mem_cons.1 hx with h1 | h1
        · exact h1 ▸ h
        · exact htrans a b x h (hb x h1)
      · simp only [insLe, h, if_false]
        refine List.pairwise_cons.2 ⟨?_, ih hl'⟩
        intro x hx
        rcases (mem_insLe le a x l).1 hx with h1 | h1
        · subst h1
          rcases htot b x with h2 | h2
          · exact h2
          · exact absurd h2 (by simpa using h)
        · exact hb x h1

theorem pairwise_isortBy (le : α → α → Bool) (l : List α)
    (htot : ∀ x y, le x y = true ∨ le y x = true)
    (htrans : ∀ x y z, le x y = true → le y z = true → le x z = true) :
    (isortBy le l).Pairwise (fun x y => le x y = true) := by
  induction l with
  | nil => simp [isortBy]
  | cons a l ih =>
      exact pairwise_insLe le a (isortBy le l) htot htrans ih

theorem filter_insLe (le : α → α → Bool) (p : α → Bool) (a : α) (l : List α)
    (h : p a = true → ∀ b, p b = true → le a b = true) :
    (insLe le a l).filter p = if p a then a :: l.filter p else l.filter p := by
  induction l with
  | nil =>
      by_cases hpa : p a
      · simp [insLe, hpa]
      · simp [insLe, hpa]
  | cons b l ih =>
      by_cases hab : le a b
      · by_cases hpa : p a
        · simp [insLe, hab, List.filter, hpa]
        · simp [insLe, hab, List.filter, hpa]
      · have hpb_imp : p a = true → p b = false := by
          intro hpa
          by_cases hpb : p b
          · exact absurd (h hpa b hpb) (by simpa using hab)
          · simpa using hpb
        by_cases hpa : p a
        · have hpb := hpb_imp hpa
          simp [insLe, hab, List.filter, hpa, hpb, ih]
        · by_cases hpb : p b
          · simp [insLe, hab, List.filter, hpa, hpb, ih]
          · simp [insLe, hab, List.filter, hpa, hpb, ih]

theorem filter_isortBy (le : α → α → Bool) (p : α → Bool) (l : List α)
    (hp : ∀ x y, p x = true → p y = true → le x y = true) :
    (isortBy le l).filter p = l.filter p := by
  induction l with
  | nil => simp [isortBy]
  | cons a l ih =>
      rw [isortBy, filter_insLe le p a (isortBy le l) (fun hpa b hpb => hp a b hpa hpb)]
      by_cases hpa : p a
      · simp [List.filter, hpa, ih]
      · simp [List.filter, hpa, ih]

theorem decLe_iff (a b : Dec) : Dec.le a b = true ↔ a.toRat ≤ b.toRat := by
  unfold Dec.le Dec.toRat
  have h10a : (0 : ℚ) < (10 : ℚ) ^ a.exp := by positivity
  have h10b : (0 : ℚ) < (10 : ℚ) ^ b.exp := by positivity
  rw [decide_eq_true_iff, div_le_div_iff h10a h10b]
  constructor
  · intro h
    exact_mod_cast h
  · intro h
    exact_mod_cast h

theorem decLe_refl (a : Dec) : Dec.le a a = true := by
  rw [decLe_iff]

theorem decLe_total (a b : Dec) : Dec.le a b = true ∨ Dec.le b a = true := by
  rw [decLe_iff, decLe_iff]
  exact le_total a.toRat b.toRat

theorem decLe_trans (a b c : Dec) (h1 : Dec.le a b = true) (h2 : Dec.le b c = true) :
    Dec.le a c = true := by
  rw [decLe_iff] at h1 h2 ⊢
  exact le_trans h1 h2

theorem charListLE_cons (a b : Char) (as bs : List Char) :
    charListLE (a :: as) (b :: bs) = true ↔
      a.toNat < b.toNat ∨ (a.toNat = b.toNat ∧ charListLE as bs = true) := by
  simp only [charListLE]
  split_ifs with h1 h2
  · simp [h1]
  · simp
    omega
  · have he : a.toNat = b.toNat := by omega
    simp [he, h1]

theorem charListLE_refl (l : List Char) : charListLE l l = true := by
  induction l with
  | nil => simp [charListLE]
  | cons a l ih => simp [charListLE, ih]

theorem charListLE_total (l m : List Char) :
    charListLE l m = true ∨ charListLE m l = true := by
  induction l generalizing m with
  | nil => simp [charListLE]
  | cons a l ih =>
      cases m with
      | nil => simp [charListLE]
      | cons b m =>
          rw [charListLE_cons, charListLE_cons]
          rcases Nat.lt_trichotomy a.toNat b.toNat with h | h | h
          · exact Or.inl (Or.inl h)
          · rcases ih m with h2 | h2
            · exact Or.inl (Or.inr ⟨h, h2⟩)
            · exact Or.inr (Or.inr ⟨h.symm, h2⟩)
          · exact Or.inr (Or.inl h)

theorem charListLE_trans (l m n : List Char)
    (h1 : charListLE l m = true) (h2 : charListLE m n = true) :
    charListLE l n = true := by
  induction l generalizing m n with
  | nil => simp [charListLE]
  | cons a l ih =>
      cases m with
      | nil => simp [charListLE] at h1
      | cons b m =>
          cases n with
          | nil => simp [charListLE] at h2
          | cons c n =>
              rw [charListLE_cons] at h1 h2 ⊢
              rcases h1 with h1 | ⟨h1e, h1r⟩ <;> rcases h2 with h2 | ⟨h2e, h2r⟩
              · exact Or.inl (by omega)
              · exact Or.inl (by omega)
              · exact Or.inl (by omega)
              · exact Or.inr ⟨by omega, ih m n h1r h2r⟩

theorem strLE_refl (s : String) : strLE s s = true :=
  charListLE_refl s.data

theorem strLE_total (s t : String) : strLE s t = true ∨ strLE t s = true :=
  charListLE_total s.data t.data

theorem strLE_trans (s t u : String)
    (h1 : strLE s t = true) (h2 : strLE t u = true) : strLE s u = true :=
  charListLE_trans s.data t.data u.data h1 h2

theorem keyLE_refl (a : SortKey) : keyLE a a = true := by
  cases a with
  | num d => simpa [keyLE] using decLe_refl d
  | str s => simpa [keyLE] using strLE_refl s
  | nullKey => simp [keyLE]

theorem keyLE_total (a b : SortKey) : keyLE a b = true ∨ keyLE b a = true := by
  cases a <;> cases b <;> simp [keyLE]
  · exact decLe_total _ _
  · exact strLE_total _ _

theorem keyLE_trans (a b c : SortKey)
    (h1 : keyLE a b = true) (h2 : keyLE b c = true) : keyLE a c = true := by
  cases a <;> cases b <;> cases c <;> simp [keyLE] at h1 h2 ⊢
  · exact decLe_trans _ _ _ h1 h2
  · exact strLE_trans _ _ _ h1 h2

/-- Per-row composite of the computed-column stage: the chain of `dictSet`
updates one row receives, in configured order. -/
def computeRow (env : EvalEnv) (cs : List ComputedColumn) (r : Row) : Row :=
  cs.foldl (fun r c => dictSet r c.name (evalCell env c r)) r

theorem apply_computed_columns_eq (env : EvalEnv) (cs : List ComputedColumn)
    (rows : List Row) (cols : List String) :
    apply_computed_columns env cs rows cols =
      (rows.map (computeRow env cs), columnsWithComputed cs cols) := by
  induction cs generalizing rows cols with
  | nil =>
      have hfun : computeRow env [] = fun r : Row => r := rfl
      have hmap : rows.map (computeRow env []) = rows := by
        rw [hfun]
        simp
      simp [apply_computed_columns, columnsWithComputed, hmap]
  | cons c cs ih =>
      have step : apply_computed_columns env (c :: cs) rows cols =
          apply_computed_columns env cs
            (rows.map (fun r => dictSet r c.name (evalCell env c r)))
            (if cols.contains c.name then cols else cols ++ [c.name]) := rfl
      rw [step, ih, List.map_map]
      rfl

theorem apply_display_formats_eq_map (fmt : FormatOracle)
    (fmtMap : List (String × String)) (rows : List Row) :
    apply_display_formats fmt fmtMap rows = rows.map (formatRow fmt fmtMap) := by
  induction fmtMap generalizing rows with
  | nil =>
      have hfun : formatRow fmt [] = fun r : Row => r := rfl
      have hmap : rows.map (formatRow fmt []) = rows := by
        rw [hfun]
        simp
      simp [apply_display_formats, hmap]
  | cons p fm ih =>
      by_cases hp : p.2 = ""
      · have step : apply_display_formats fmt (p :: fm) rows =
            apply_display_formats fmt fm rows := by
          simp [apply_display_formats, hp]
        have frow : ∀ r, formatRow fmt (p :: fm) r = formatRow fmt fm r := by
          intro r
          simp [formatRow, hp]
        rw [step, ih]
        exact List.map_congr_left (fun r _ => (frow r).symm)
      · have step : apply_display_formats fmt (p :: fm) rows =
            apply_display_formats fmt fm (rows.map (formatCellInRow fmt p.1 p.2)) := by
          simp [apply_display_formats, hp]
        have frow : ∀ r, formatRow fmt (p :: fm) r =
            formatRow fmt fm (formatCellInRow fmt p.1 p.2 r) := by
          intro r
          simp [formatRow, hp]
        rw [step, ih, List.map_map]
        exact List.map_congr_left (fun r _ => (frow r).symm)

/-- The inner key-discovery fold of `_normalize_rows` (`view_engine.py`
lines 43-47) over one row. -/
def discoverKeys (r : Row) (cols : List String) : List String :=
  r.foldl (fun cols p => if cols.contains p.1 then cols else cols ++ [p.1]) cols

theorem collectColumns_eq (rows : List Row) :
    collectColumns rows = rows.foldl (fun cols r => discoverKeys r cols) ["path"] := rfl

theorem discoverKeys_append_only (r : Row) (cols : List String) :
    ∃ t, discoverKeys r cols = cols ++ t := by
  induction r generalizing cols with
  | nil => exact ⟨[], by simp [discoverKeys]⟩
  | cons p r ih =>
      by_cases h : p.1 ∈ cols
      · have step : discoverKeys (p :: r) cols = discoverKeys r cols := by
          simp [discoverKeys, h]
        rw [step]
        exact ih cols
      · have step : discoverKeys (p :: r) cols = discoverKeys r (cols ++ [p.1]) := by
          simp [discoverKeys, h]
        rw [step]
        rcases ih (cols ++ [p.1]) with ⟨t, ht⟩
        exact ⟨p.1 :: t, by simp [ht]⟩

theorem mem_discoverKeys_iff (r : Row) (cols : List String) (a : String) :
    a ∈ discoverKeys r cols ↔ a ∈ cols ∨ a ∈ rowKeys r := by
  induction r generalizing cols with
  | nil => simp [discoverKeys, rowKeys]
  | cons p r ih =>
      by_cases h : p.1 ∈ cols
      · have hmem : p.1 ∈ cols := h
        have step : discoverKeys (p :: r) cols = discoverKeys r cols := by
          simp [discoverKeys, h]
        rw [step, ih]
        simp [rowKeys]
        constructor
        · rintro (h1 | h1)
          · exact Or.inl h1
          · exact Or.inr (Or.inr h1)
        · rintro (h1 | h1 | h1)
          · exact Or.inl h1
          · exact Or.inl (h1 ▸ hmem)
          · exact Or.inr h1
      · have step : discoverKeys (p :: r) cols = discoverKeys r (cols ++ [p.1]) := by
          simp [discoverKeys, h]
        rw [step, ih]
        simp [rowKeys]
        tauto

theorem nodup_discoverKeys (r : Row) (cols : List String) (h : cols.Nodup) :
    (discoverKeys r cols).Nodup := by
  induction r generalizing cols with
  | nil => simpa [discoverKeys]
  | cons p r ih =>
      by_cases hc : p.1 ∈ cols
      · have step : discoverKeys (p :: r) cols = discoverKeys r cols := by
          simp [discoverKeys, hc]
        rw [step]
        exact ih cols h
      · have hnm : p.1 ∉ cols := hc
        have step : discoverKeys (p :: r) cols = discoverKeys r (cols ++ [p.1]) := by
          simp [discoverKeys, hc]
        rw [step]
        exact ih (cols ++ [p.1]) (by simp [List.nodup_append, h, hnm])

theorem foldDiscover_append_only (rows : List Row) (cols : List String) :
    ∃ t, rows.foldl (fun cols r => discoverKeys r cols) cols = cols ++ t := by
  induction rows generalizing cols with
  | nil => exact ⟨[], by simp⟩
  | cons r rows ih =>
      rcases discoverKeys_append_only r cols with ⟨t1, ht1⟩
      rcases ih (discoverKeys r cols) with ⟨t2, ht2⟩
      refine ⟨t1 ++ t2, ?_⟩
      simp only [List.foldl_cons]
      rw [ht2, ht1, List.append_assoc]

theorem mem_foldDiscover_iff (rows : List Row) (cols : List String) (a : String) :
    a ∈ rows.foldl (fun cols r => discoverKeys r cols) cols ↔
      a ∈ cols ∨ ∃ r ∈ rows, a ∈ rowKeys r := by
  induction rows generalizing cols with
  | nil => simp
  | cons r rows ih =>
      simp only [List.foldl_cons]
      rw [ih, mem_discoverKeys_iff]
      simp
      tauto

theorem nodup_foldDiscover (rows : List Row) (cols : List String) (h : cols.Nodup) :
    (rows.foldl (fun cols r => discoverKeys r cols) cols).Nodup := by
  induction rows generalizing cols with
  | nil => simpa
  | cons r rows ih =>
      simp only [List.foldl_cons]
      exact ih (discoverKeys r cols) (nodup_discoverKeys r cols h)

theorem collectColumns_head (rows : List Row) :
    ∃ t, collectColumns rows = "path" :: t := by
  rw [collectColumns_eq]
  rcases foldDiscover_append_only rows ["path"] with ⟨t, ht⟩
  exact ⟨t, by simpa using ht⟩

theorem mem_collectColumns_iff (rows : List Row) (a : String) :
    a ∈ collectColumns rows ↔ a = "path" ∨ ∃ r ∈ rows, a ∈ rowKeys r := by
  rw [collectColumns_eq, mem_foldDiscover_iff]
  simp

theorem nodup_collectColumns (rows : List Row) : (collectColumns rows).Nodup := by
  rw [collectColumns_eq]
  exact nodup_foldDiscover rows ["path"] (by simp)

theorem mem_rowKeys_backfillRow (cols : List String) (r : Row) (a : String) :
    a ∈ rowKeys (backfillRow cols r) ↔ a ∈ rowKeys r ∨ a ∈ cols := by
  induction cols generalizing r with
  | nil => simp [backfillRow]
  | cons c cols ih =>
      have step : backfillRow (c :: cols) r = backfillRow cols (dictSetDefault r c Value.none) := rfl
      rw [step, ih]
      rw [mem_rowKeys_dictSetDefault]
      simp
      tauto

theorem dictGet_backfillRow_of_some (cols : List String) (r : Row) (k : String)
    (v : Value) (h : dictGet r k = some v) :
    dictGet (backfillRow cols r) k = some v := by
  induction cols generalizing r with
  | nil => simpa [backfillRow]
  | cons c cols ih =>
      have step : backfillRow (c :: cols) r = backfillRow cols (dictSetDefault r c Value.none) := rfl
      rw [step]
      exact ih (dictSetDefault r c Value.none) (dictGet_dictSetDefault_of_some r c k Value.none v h)

theorem normalize_rows_length (records : List Row) :
    (normalize_rows records).1.length = records.length := by
  simp [normalize_rows]

theorem normalize_rows_keyset (records : List Row) (r : Row)
    (h : r ∈ (normalize_rows records).1) (a : String) :
    a ∈ rowKeys r ↔ a ∈ (normalize_rows records).2 := by
  simp only [normalize_rows] at h ⊢
  rcases List.mem_map.1 h with ⟨r0, hr0, hr0eq⟩
  rcases List.mem_map.1 hr0 with ⟨rec, hrec, hreceq⟩
  subst hr0eq
  rw [mem_rowKeys_backfillRow]
  constructor
  · rintro (h1 | h1)
    · rw [mem_collectColumns_iff]
      exact Or.inr ⟨r0, hr0, h1⟩
    · exact h1
  · exact Or.inr

/-- The elements of `l` that are not in `seen`, keeping only the first
occurrence of each element, in order: the `seen`-set idiom of
`_ordered_columns` as a recursive function. -/
def firstOccur : List String → List String → List String
  | _, [] => []
  | seen, c :: rest =>
      if seen.contains c then firstOccur seen rest
      else c :: firstOccur (seen ++ [c]) rest

theorem mem_firstOccur (seen l : List String) (a : String) :
    a ∈ firstOccur seen l ↔ a ∈ l ∧ a ∉ seen := by
  induction l generalizing seen with
  | nil => simp [firstOccur]
  | cons c rest ih =>
      by_cases h : c ∈ seen
      · rw [show firstOccur seen (c :: rest) = firstOccur seen rest by simp [firstOccur, h]]
        rw [ih]
        simp only [List.mem_cons]
        constructor
        · rintro ⟨h1, h2⟩
          exact ⟨Or.inr h1, h2⟩
        · rintro ⟨h1 | h1, h2⟩
          · exact absurd (h1 ▸ h) h2
          · exact ⟨h1, h2⟩
      · rw [show firstOccur seen (c :: rest) = c :: firstOccur (seen ++ [c]) rest by
          simp [firstOccur, h]]
        simp only [List.mem_cons, ih]
        simp
        constructor
        · rintro (h1 | ⟨h1, h2, h3⟩)
          · exact ⟨Or.inl h1, h1 ▸ h⟩
          · exact ⟨Or.inr h1, h2⟩
        · rintro ⟨h1 | h1, h2⟩
          · exact Or.inl h1
          · by_cases hc : a = c
            · exact Or.inl hc
            · exact Or.inr ⟨h1, h2, hc⟩

theorem firstOccur_eq_filter (l seen : List String) (h : l.Nodup) :
    firstOccur seen l = l.filter (fun c => !seen.contains c) := by
  induction l generalizing seen with
  | nil => simp [firstOccur]
  | cons c rest ih =>
      rcases List.nodup_cons.1 h with ⟨hc, hrest⟩
      by_cases hm : c ∈ seen
      · rw [show firstOccur seen (c :: rest) = firstOccur seen rest by simp [firstOccur, hm]]
        rw [ih seen hrest]
        simp [hm]
      · rw [show firstOccur seen (c :: rest) = c :: firstOccur (seen ++ [c]) rest by
          simp [firstOccur, hm]]
        rw [ih (seen ++ [c]) hrest]
        simp only [List.filter_cons]
        simp [hm]
        exact List.filter_congr (fun x hx => by
          have hxc : ¬ x = c := fun hh => hc (hh ▸ hx)
          simp [hxc])

theorem step1_fold (all ord e : List String) :
    ord.foldl
      (fun (acc : List String × List String) c =>
        if all.contains c && !acc.2.contains c then (acc.1 ++ [c], acc.2 ++ [c]) else acc)
      (e, e) =
    (e ++ firstOccur e (ord.filter (fun c => all.contains c)),
     e ++ firstOccur e (ord.filter (fun c => all.contains c))) := by
  induction ord generalizing e with
  | nil => simp [firstOccur]
  | cons c ord ih =>
      by_cases hall : c ∈ all
      · by_cases he : c ∈ e
        · have hcond : (all.contains c && !List.contains e c) = false := by
            simp [hall, he]
          simp only [List.foldl_cons, hcond, Bool.false_eq_true, if_false]
          rw [ih e]
          have hfilt : (c :: ord).filter (fun c => all.contains c) =
              c :: ord.filter (fun c => all.contains c) := by
            simp [List.filter_cons, hall]
          rw [hfilt]
          rw [show firstOccur e (c :: ord.filter (fun c => all.contains c)) =
              firstOccur e (ord.filter (fun c => all.contains c)) by simp [firstOccur, he]]
        · have hcond : (all.contains c && !List.contains e c) = true := by
            simp [hall, he]
          simp only [List.foldl_cons, hcond, if_true]
          rw [ih (e ++ [c])]
          have hfilt : (c :: ord).filter (fun c => all.contains c) =
              c :: ord.filter (fun c => all.contains c) := by
            simp [List.filter_cons, hall]
          rw [hfilt]
          rw [show firstOccur e (c :: ord.filter (fun c => all.contains c)) =
              c :: firstOccur (e ++ [c]) (ord.filter (fun c => all.contains c)) by
            simp [firstOccur, he]]
          simp
      · have hcond : (all.contains c && !List.contains e c) = false := by
          simp [hall]
        simp only [List.foldl_cons, hcond, Bool.false_eq_true, if_false]
        rw [ih e]
        have hfilt : (c :: ord).filter (fun c => all.contains c) =
            ord.filter (fun c => all.contains c) := by
          simp [List.filter_cons, hall]
        rw [hfilt]

theorem step2_fold (all e : List String) :
    all.foldl
      (fun (acc : List String × List String) c =>
        if acc.2.contains c then acc else (acc.1 ++ [c], acc.2 ++ [c]))
      (e, e) =
    (e ++ firstOccur e all, e ++ firstOccur e all) := by
  induction all generalizing e with
  | nil => simp [firstOccur]
  | cons c all ih =>
      by_cases he : c ∈ e
      · have hcond : List.contains e c = true := by simpa using he
        simp only [List.foldl_cons, hcond, if_true]
        rw [ih e]
        rw [show firstOccur e (c :: all) = firstOccur e all by simp [firstOccur, he]]
      · have hcond : List.contains e c = false := by simpa using he
        simp only [List.foldl_cons, hcond, Bool.false_eq_true, if_false]
        rw [ih (e ++ [c])]
        rw [show firstOccur e (c :: all) = c :: firstOccur (e ++ [c]) all by
          simp [firstOccur, he]]
        simp

theorem ordered_columns_eq (order all : List String) :
    ordered_columns order all =
      firstOccur [] (order.filter (fun c => all.contains c)) ++
        firstOccur (firstOccur [] (order.filter (fun c => all.contains c))) all := by
  unfold ordered_columns
  rw [step1_fold all order []]
  simp only [List.nil_append]
  rw [step2_fold all (firstOccur [] (order.filter (fun c => all.contains c)))]

theorem nodup_columnsWithComputed (cs : List ComputedColumn) (cols : List String)
    (h : cols.Nodup) : (columnsWithComputed cs cols).Nodup := by
  induction cs generalizing cols with
  | nil => simpa [columnsWithComputed]
  | cons c cs ih =>
      by_cases hc : c.name ∈ cols
      · have step : columnsWithComputed (c :: cs) cols = columnsWithComputed cs cols := by
          simp [columnsWithComputed, hc]
        rw [step]
        exact ih cols h
      · have step : columnsWithComputed (c :: cs) cols = columnsWithComputed cs (cols ++ [c.name]) := by
          simp [columnsWithComputed, hc]
        rw [step]
        exact ih (cols ++ [c.name]) (by simp [List.nodup_append, h, hc])

theorem mem_columnsWithComputed (cs : List ComputedColumn) (cols : List String) (a : String) :
    a ∈ columnsWithComputed cs cols ↔ a ∈ cols ∨ ∃ c ∈ cs, a = c.name := by
  induction cs generalizing cols with
  | nil => simp [columnsWithComputed]
  | cons c cs ih =>
      by_cases hc : c.name ∈ cols
      · have step : columnsWithComputed (c :: cs) cols = columnsWithComputed cs cols := by
          simp [columnsWithComputed, hc]
        rw [step, ih]
        simp
        constructor
        · rintro (h1 | h1)
          · exact Or.inl h1
          · exact Or.inr (Or.inr h1)
        · rintro (h1 | h1 | h1)
          · exact Or.inl h1
          · exact Or.inl (h1 ▸ hc)
          · exact Or.inr h1
      · have step : columnsWithComputed (c :: cs) cols = columnsWithComputed cs (cols ++ [c.name]) := by
          simp [columnsWithComputed, hc]
        rw [step, ih]
        simp
        tauto

theorem columnsWithComputed_head (cs : List ComputedColumn) (cols : List String)
    (a : String) (hh : ∃ t, cols = a :: t) :
    ∃ t, columnsWithComputed cs cols = a :: t := by
  induction cs generalizing cols with
  | nil => simpa [columnsWithComputed]
  | cons c cs ih =>
      by_cases hc : c.name ∈ cols
      · have step : columnsWithComputed (c :: cs) cols = columnsWithComputed cs cols := by
          simp [columnsWithComputed, hc]
        rw [step]
        exact ih cols hh
      · have step : columnsWithComputed (c :: cs) cols = columnsWithComputed cs (cols ++ [c.name]) := by
          simp [columnsWithComputed, hc]
        rw [step]
        rcases hh with ⟨t, ht⟩
        exact ih (cols ++ [c.name]) ⟨t ++ [c.name], by simp [ht]⟩

/-- The whole pipeline, written as the composition of the stage functions:
`apply_view` unfolded through the map structure of the computed stage. -/
theorem apply_view_eq (env : EvalEnv) (fmt : FormatOracle) (records : List Row)
    (view : ViewConfig) :
    apply_view env fmt records view =
      ⟨ordered_columns view.columns.order
          (columnsWithComputed view.columns.computed (normalize_rows records).2),
        (ordered_columns view.columns.order
          (columnsWithComputed view.columns.computed (normalize_rows records).2)).filter
          (fun c => !view.columns.hidden.contains c),
        apply_display_formats fmt view.columns.format
          (sort_rows view
            ((normalize_rows records).1.map (computeRow env view.columns.computed)))⟩ := by
  simp only [apply_view, apply_computed_columns_eq]

/-- The column order as spec section 4.3 words it: the configured-order
entries that exist in the column set, each at most once, in configured order,
followed by the columns the order does not mention, in discovery order. -/
def specOrderedColumns (configured_order all_columns : List String) : List String :=
  firstOccur [] (configured_order.filter (fun c => all_columns.contains c)) ++
    all_columns.filter (fun c => !configured_order.contains c)

theorem ordered_columns_spec (order all : List String) (h : all.Nodup) :
    ordered_columns order all = specOrderedColumns order all := by
  rw [ordered_columns_eq]
  unfold specOrderedColumns
  congr 1
  rw [firstOccur_eq_filter all _ h]
  refine List.filter_congr (fun c hc => ?_)
  have hiff : c ∈ firstOccur [] (order.filter (fun c => all.contains c)) ↔ c ∈ order := by
    rw [mem_firstOccur]
    simp [hc]
  by_cases ho : c ∈ order
  · have h1 : List.contains (firstOccur [] (order.filter (fun c => all.contains c))) c = true := by
      simpa using hiff.2 ho
    have h2 : List.contains order c = true := by simpa using ho
    rw [h1, h2]
  · have hnx : c ∉ firstOccur [] (order.filter (fun c => all.contains c)) :=
      fun hm => ho (hiff.1 hm)
    have h1 : List.contains (firstOccur [] (order.filter (fun c => all.contains c))) c = false := by
      simpa using hnx
    have h2 : List.contains order c = false := by simpa using ho
    rw [h1, h2]

/-- C6: the final column order produced by `apply` consists of the configured
order entries that exist in the discovered+computed column set, each at most
once and in configured order, followed by the remaining columns in discovery
order; order entries naming absent columns are silently dropped;
`visible_columns` is this ordered list minus the hidden set, order
preserved. -/
theorem C6_column_order (env : EvalEnv) (fmt : FormatOracle) (records : List Row)
    (view : ViewConfig) :
    (apply_view env fmt records view).all_columns =
      specOrderedColumns view.columns.order
        (columnsWithComputed view.columns.computed (normalize_rows records).2) ∧
    (apply_view env fmt records view).visible_columns =
      (apply_view env fmt records view).all_columns.filter
        (fun c => !view.columns.hidden.contains c) := by
  rw [apply_view_eq]
  constructor
  · exact ordered_columns_spec view.columns.order _
      (nodup_columnsWithComputed view.columns.computed _
        (nodup_collectColumns (records.map copyRecord)))
  · rfl

/-- C10: a float NaN is recognized by the numeric coercion (`_to_float`
returns it), yet `_sortable_value` deliberately assigns it the string tier
with key `"nan"` instead of a numeric key; the resulting key order is total
and transitive, so sorting row sets containing NaN is deterministic and
well-ordered (a NaN never participates in a numeric comparison: the numeric
tier of `SortKey` cannot carry NaN at all). -/
theorem C10_nan_string_tier :
    to_float (Value.float PyFloat.nan) = some PyFloat.nan ∧
    sortable_value (Value.float PyFloat.nan) = SortKey.str "nan" ∧
    (∀ a b : SortKey, (keyLE a b || keyLE b a) = true) ∧
    (∀ a b c : SortKey, (!(keyLE a b && keyLE b c) || keyLE a c) = true) := by
  refine ⟨rfl, rfl, ?_, ?_⟩
  · intro a b
    rcases keyLE_total a b with h | h <;> simp [h]
  · intro a b c
    by_cases h1 : keyLE a b = true
    · by_cases h2 : keyLE b c = true
      · simp [keyLE_trans a b c h1 h2]
      · simp [Bool.eq_false_iff.2 h2]
    · simp [Bool.eq_false_iff.2 h1]

theorem apply_computed_columns_fst_length (env : EvalEnv) (cs : List ComputedColumn)
    (rows : List Row) (cols : List String) :
    (apply_computed_columns env cs rows cols).1.length = rows.length := by
  rw [apply_computed_columns_eq]
  simp

/-- C3 counterexample: the same computed-column expression, evaluated on the
same single-row input with the same configuration, produces different tables
under two evaluation environments — two snapshots of the ambient process
state that the expression can reach because `_apply_computed_columns` passes
`__builtins__` into the eval globals (`view_engine.py` line 57).  The claim
that "differences in anything other than the row cannot change" the computed
value is therefore false of the code. -/
theorem C3_counterexample :
    apply_computed_columns (constEval (Value.str "a"))
        [⟨"c", "open(\"state.txt\").read()"⟩] [[("path", Value.str "p")]] ["path"] ≠
      apply_computed_columns (constEval (Value.str "b"))
        [⟨"c", "open(\"state.txt\").read()"⟩] [[("path", Value.str "p")]] ["path"] := by
  decide

/-- C3 (amended): the locals scope of a computed-column evaluation exposes
only the row, but the globals scope exposes Python's builtins and through
them the ambient process state.  What does hold: each row's computed values
depend only on the evaluation environment and that row's own mapping — the
stage is a per-row map, so a row's result is unchanged by the other rows in
the batch or by the column list, and two evaluations of an equal row under
an equal environment agree. -/
theorem C3_row_locality (env : EvalEnv) (cs : List ComputedColumn)
    (rows rows2 : List Row) (cols cols2 : List String) (i j : ℕ)
    (hi : i < rows.length) (hj : j < rows2.length)
    (hi2 : i < (apply_computed_columns env cs rows cols).1.length)
    (hj2 : j < (apply_computed_columns env cs rows2 cols2).1.length)
    (heq : rows.get ⟨i, hi⟩ = rows2.get ⟨j, hj⟩) :
    (apply_computed_columns env cs rows cols).1 = rows.map (computeRow env cs) ∧
    (apply_computed_columns env cs rows cols).1.get ⟨i, hi2⟩ =
      (apply_computed_columns env cs rows2 cols2).1.get ⟨j, hj2⟩ := by
  have h1 : (apply_computed_columns env cs rows cols).1 = rows.map (computeRow env cs) := by
    rw [apply_computed_columns_eq]
  have h2 : (apply_computed_columns env cs rows2 cols2).1 = rows2.map (computeRow env cs) := by
    rw [apply_computed_columns_eq]
  refine ⟨h1, ?_⟩
  have g1 : (apply_computed_columns env cs rows cols).1.get ⟨i, hi2⟩ =
      computeRow env cs (rows.get ⟨i, hi⟩) := by
    simp [h1]
  have g2 : (apply_computed_columns env cs rows2 cols2).1.get ⟨j, hj2⟩ =
      computeRow env cs (rows2.get ⟨j, hj⟩) := by
    simp [h2]
  rw [g1, g2, heq]

theorem C3_row_locality_witness :
    (apply_computed_columns (constEval (Value.int 1))
        [⟨"c", "row[\"x\"]"⟩] [[("path", Value.str "p")]] ["path"]).1 =
      [[("path", Value.str "p")]].map (computeRow (constEval (Value.int 1)) [⟨"c", "row[\"x\"]"⟩]) ∧
    ((apply_computed_columns (constEval (Value.int 1))
        [⟨"c", "row[\"x\"]"⟩] [[("path", Value.str "p")]] ["path"]).1.get
        ⟨0, by decide⟩ =
      (apply_computed_columns (constEval (Value.int 1))
        [⟨"c", "row[\"x\"]"⟩]
        [[("path", Value.str "p")], [("path", Value.str "q")]] ["path", "z"]).1.get
        ⟨0, by decide⟩) :=
  C3_row_locality (constEval (Value.int 1)) [⟨"c", "row[\"x\"]"⟩]
    [[("path", Value.str "p")]] [[("path", Value.str "p")], [("path", Value.str "q")]]
    ["path"] ["path", "z"] 0 0 (by decide) (by decide) (by decide) (by decide) rfl

theorem dictGet_computeRow_ne (env : EvalEnv) (cs : List ComputedColumn) (r : Row)
    (k : String) (h : ∀ c ∈ cs, c.name ≠ k) :
    dictGet (computeRow env cs r) k = dictGet r k := by
  induction cs generalizing r with
  | nil => rfl
  | cons c cs ih =>
      have step : computeRow env (c :: cs) r =
          computeRow env cs (dictSet r c.name (evalCell env c r)) := rfl
      rw [step, ih _ (fun c2 hc2 => h c2 (List.mem_cons_of_mem c hc2))]
      exact dictGet_dictSet_ne r c.name k (evalCell env c r)
        (fun hh => h c (List.mem_cons_self c cs) hh.symm)

theorem computeRow_append (env : EvalEnv) (cs1 cs2 : List ComputedColumn) (r : Row) :
    computeRow env (cs1 ++ cs2) r = computeRow env cs2 (computeRow env cs1 r) := by
  simp [computeRow, List.foldl_append]

theorem columnsWithComputed_append (cs1 cs2 : List ComputedColumn) (cols : List String) :
    columnsWithComputed (cs1 ++ cs2) cols =
      columnsWithComputed cs2 (columnsWithComputed cs1 cols) := by
  simp [columnsWithComputed, List.foldl_append]

theorem columnsWithComputed_cons_of_mem (c : ComputedColumn) (cs : List ComputedColumn)
    (cols : List String) (hc : c.name ∈ cols) :
    columnsWithComputed (c :: cs) cols = columnsWithComputed cs cols := by
  simp [columnsWithComputed, hc]

theorem count_columnsWithComputed_ne (cs : List ComputedColumn) (cols : List String)
    (k : String) (h : ∀ c ∈ cs, c.name ≠ k) :
    List.count k (columnsWithComputed cs cols) = List.count k cols := by
  induction cs generalizing cols with
  | nil => rfl
  | cons c cs ih =>
      have hrest : ∀ c2 ∈ cs, c2.name ≠ k := fun c2 hc2 => h c2 (List.mem_cons_of_mem c hc2)
      by_cases hc : c.name ∈ cols
      · have step : columnsWithComputed (c :: cs) cols = columnsWithComputed cs cols := by
          simp [columnsWithComputed, hc]
        rw [step, ih cols hrest]
      · have step : columnsWithComputed (c :: cs) cols =
            columnsWithComputed cs (cols ++ [c.name]) := by
          simp [columnsWithComputed, hc]
        rw [step, ih _ hrest]
        have hne : c.name ≠ k := h c (List.mem_cons_self c cs)
        simp [List.count_append, List.count_cons, List.count_nil, hne, Ne.symm hne]

/-- C9: when a computed column's name equals a column that is already present
(a discovered field — including `path` — or an earlier computed column), the
column list gains no duplicate entry, every row's value at that name is
overwritten with the expression's result (evaluated on the row state left by
the earlier computed columns), and the sorting/pinning stage consumes exactly
these overwritten rows. -/
theorem C9_computed_overwrite (env : EvalEnv) (fmt : FormatOracle)
    (records : List Row) (view : ViewConfig) (cs1 cs2 : List ComputedColumn)
    (c : ComputedColumn) (rows : List Row) (cols : List String)
    (hmem : c.name ∈ columnsWithComputed cs1 cols)
    (hafter : ∀ c2 ∈ cs2, c2.name ≠ c.name) :
    List.count c.name (apply_computed_columns env (cs1 ++ c :: cs2) rows cols).2 =
      List.count c.name (columnsWithComputed cs1 cols) ∧
    (∀ r ∈ rows, dictGet (computeRow env (cs1 ++ c :: cs2) r) c.name =
      some (evalCell env c (computeRow env cs1 r))) ∧
    (apply_view env fmt records view).rows =
      apply_display_formats fmt view.columns.format
        (sort_rows view
          ((normalize_rows records).1.map (computeRow env view.columns.computed))) := by
  refine ⟨?_, ?_, ?_⟩
  · rw [apply_computed_columns_eq]
    simp only
    rw [columnsWithComputed_append, columnsWithComputed_cons_of_mem c cs2 _ hmem]
    exact count_columnsWithComputed_ne cs2 _ c.name hafter
  · intro r _
    have hsplit : cs1 ++ c :: cs2 = (cs1 ++ [c]) ++ cs2 := by simp
    rw [hsplit, computeRow_append]
    rw [dictGet_computeRow_ne env cs2 _ c.name hafter]
    rw [computeRow_append]
    have step : computeRow env [c] (computeRow env cs1 r) =
        dictSet (computeRow env cs1 r) c.name (evalCell env c (computeRow env cs1 r)) := rfl
    rw [step]
    exact dictGet_dictSet_self _ c.name _
  · rw [apply_view_eq]

theorem C9_computed_overwrite_witness :
    List.count "path"
        (apply_computed_columns noEval ([] ++ (⟨"path", "row[\"step\"]"⟩ : ComputedColumn) :: [])
          [[("path", Value.str "a"), ("step", Value.int 3)]] ["path", "step"]).2 =
      List.count "path" (columnsWithComputed [] ["path", "step"]) ∧
    (∀ r ∈ [[("path", Value.str "a"), ("step", Value.int 3)]],
      dictGet (computeRow noEval ([] ++ (⟨"path", "row[\"step\"]"⟩ : ComputedColumn) :: []) r) "path" =
        some (evalCell noEval ⟨"path", "row[\"step\"]"⟩ (computeRow noEval [] r))) ∧
    (apply_view noEval pyFormatD [[("path", Value.str "a"), ("step", Value.int 3)]]
        ⟨"demo", ".*", ⟨["path"], [], [], [⟨"path", "row[\"step\"]"⟩], []⟩,
          ⟨[], ⟨Option.none, "asc"⟩⟩⟩).rows =
      apply_display_formats pyFormatD []
        (sort_rows
          ⟨"demo", ".*", ⟨["path"], [], [], [⟨"path", "row[\"step\"]"⟩], []⟩,
            ⟨[], ⟨Option.none, "asc"⟩⟩⟩
          ((normalize_rows [[("path", Value.str "a"), ("step", Value.int 3)]]).1.map
            (computeRow noEval [⟨"path", "row[\"step\"]"⟩]))) :=
  C9_computed_overwrite noEval pyFormatD [[("path", Value.str "a"), ("step", Value.int 3)]]
    ⟨"demo", ".*", ⟨["path"], [], [], [⟨"path", "row[\"step\"]"⟩], []⟩,
      ⟨[], ⟨Option.none, "asc"⟩⟩⟩
    [] [] ⟨"path", "row[\"step\"]"⟩
    [[("path", Value.str "a"), ("step", Value.int 3)]] ["path", "step"]
    (by decide) (by decide)

theorem mem_rowKeys_computeRow (env : EvalEnv) (cs : List ComputedColumn) (r : Row)
    (a : String) :
    a ∈ rowKeys (computeRow env cs r) ↔ a ∈ rowKeys r ∨ ∃ c ∈ cs, a = c.name := by
  induction cs generalizing r with
  | nil => simp [computeRow]
  | cons c cs ih =>
      have step : computeRow env (c :: cs) r =
          computeRow env cs (dictSet r c.name (evalCell env c r)) := rfl
      rw [step, ih, mem_rowKeys_dictSet]
      simp
      tauto

theorem rowKeys_formatCellInRow (fmt : FormatOracle) (colName tmpl : String) (r : Row) :
    rowKeys (formatCellInRow fmt colName tmpl r) = rowKeys r := by
  unfold formatCellInRow
  rcases h : dictGet r colName with _ | v
  · rfl
  · have hmem : colName ∈ rowKeys r := (dictGet_isSome_iff_mem r colName).1 (by simp [h])
    cases v with
    | none => rfl
    | bool b => exact rowKeys_dictSet_of_mem r colName _ hmem
    | int n => exact rowKeys_dictSet_of_mem r colName _ hmem
    | float f => exact rowKeys_dictSet_of_mem r colName _ hmem
    | str s => exact rowKeys_dictSet_of_mem r colName _ hmem

theorem rowKeys_formatRow (fmt : FormatOracle) (fm : List (String × String)) (r : Row) :
    rowKeys (formatRow fmt fm r) = rowKeys r := by
  induction fm generalizing r with
  | nil => rfl
  | cons p fm ih =>
      by_cases hp : p.2 = ""
      · have step : formatRow fmt (p :: fm) r = formatRow fmt fm r := by
          simp [formatRow, hp]
        rw [step, ih]
      · have step : formatRow fmt (p :: fm) r =
            formatRow fmt fm (formatCellInRow fmt p.1 p.2 r) := by
          simp [formatRow, hp]
        rw [step, ih, rowKeys_formatCellInRow]

theorem sort_rows_perm (view : ViewConfig) (rows : List Row) :
    List.Perm (sort_rows view rows) rows := by
  unfold sort_rows
  have hsplit : List.Perm
      (rows.filter (fun r => rowPinned view.rows.pinned_ids r) ++
        rows.filter (fun r => !rowPinned view.rows.pinned_ids r)) rows :=
    List.filter_append_perm _ rows
  refine List.Perm.trans (List.Perm.append ?_ ?_) hsplit
  · exact perm_isortBy _ _
  · rcases view.rows.sort.sortBy with _ | field
    · exact List.Perm.refl _
    · by_cases hf : field == ""
      · simp only [hf, if_true]
        exact List.Perm.refl _
      · by_cases hd : view.rows.sort.direction == "desc"
        · simp only [hf, Bool.false_eq_true, if_false, hd, if_true]
          exact perm_isortBy _ _
        · simp only [hf, hd, Bool.false_eq_true, if_false]
          exact perm_isortBy _ _

theorem mem_sort_rows (view : ViewConfig) (rows : List Row) (r : Row)
    (h : r ∈ sort_rows view rows) : r ∈ rows :=
  (sort_rows_perm view rows).mem_iff.1 h

theorem length_sort_rows (view : ViewConfig) (rows : List Row) :
    (sort_rows view rows).length = rows.length :=
  (sort_rows_perm view rows).length_eq

theorem mem_ordered_columns (order all : List String) (a : String) :
    a ∈ ordered_columns order all ↔ a ∈ all := by
  rw [ordered_columns_eq]
  constructor
  · intro h
    rcases List.mem_append.1 h with h1 | h1
    · rcases List.mem_filter.1 ((mem_firstOccur _ _ _).1 h1).1 with ⟨_, hall⟩
      simpa using hall
    · exact ((mem_firstOccur _ _ _).1 h1).1
  · intro h
    by_cases hx : a ∈ firstOccur [] (order.filter (fun c => all.contains c))
    · exact List.mem_append.2 (Or.inl hx)
    · exact List.mem_append.2 (Or.inr ((mem_firstOccur _ _ _).2 ⟨h, hx⟩))

/-- C2 counterexample: with records defining columns `path` and `loss` and a
view whose configured `columns.order` is `["loss"]`, the table's
`all_columns` is `["loss", "path"]` — its first element is not `"path"`, so
the invariant does not hold for every `ViewConfig`. -/
theorem C2_counterexample :
    (apply_view noEval pyFormatD [[("path", Value.str "a"), ("loss", Value.int 1)]]
        ⟨"v", ".*", ⟨["loss"], [], [], [], []⟩, ⟨[], ⟨Option.none, "asc"⟩⟩⟩).all_columns =
      ["loss", "path"] ∧
    (["loss", "path"].head? ≠ some "path") := by
  refine ⟨by decide, by decide⟩

/-- Whether the key set of a row coincides (as a set) with a column list. -/
def keySetMatches (cols : List String) (r : Row) : Bool :=
  (rowKeys r).all (fun k => cols.contains k) && cols.all (fun c => (rowKeys r).contains c)

/-- Whether every row of a table has exactly the table's columns as keys. -/
def rowsKeySetsMatch (t : TableResult) : Bool :=
  t.rows.all (fun r => keySetMatches t.all_columns r)

theorem keySetMatches_iff (cols : List String) (r : Row) :
    keySetMatches cols r = true ↔ ∀ a, (a ∈ rowKeys r ↔ a ∈ cols) := by
  simp only [keySetMatches, Bool.and_eq_true, List.all_eq_true]
  constructor
  · rintro ⟨h1, h2⟩ a
    exact ⟨fun h => by simpa using h1 a h, fun h => by simpa using h2 a h⟩
  · intro h
    exact ⟨fun a ha => by simpa using (h a).1 ha, fun a ha => by simpa using (h a).2 ha⟩

theorem ordered_columns_head_path (order all : List String)
    (hall : ∃ t, all = "path" :: t)
    (h : order.head? = some "path" ∨ order = []) :
    (ordered_columns order all).head? = some "path" := by
  rcases hall with ⟨t, ht⟩
  subst ht
  rcases h with h | h
  · rcases order with _ | ⟨o, ord⟩
    · simp at h
    · have ho : o = "path" := by simpa using h
      subst ho
      rw [ordered_columns_eq]
      have hfilt : ("path" :: ord).filter (fun c => ("path" :: t).contains c) =
          "path" :: ord.filter (fun c => ("path" :: t).contains c) := by
        simp [List.filter_cons]
      rw [hfilt]
      rw [show firstOccur [] ("path" :: ord.filter (fun c => ("path" :: t).contains c)) =
          "path" :: firstOccur ["path"] (ord.filter (fun c => ("path" :: t).contains c)) by
        simp [firstOccur]]
      simp
  · subst h
    rw [ordered_columns_eq]
    simp only [List.filter_nil]
    rw [show firstOccur [] ([] : List String) = [] from rfl]
    rw [show firstOccur ([] : List String) ("path" :: t) =
        "path" :: firstOccur ["path"] t by simp [firstOccur]]
    simp

/-- C2 (amended): for every record sequence and every view whose configured
`columns.order` is empty or starts with `"path"` (as the default `["path"]`
does), the table's `all_columns` starts with `"path"`; and for every record
sequence and every view whatsoever — `view2` below is arbitrary and
unconstrained — each row's key set is exactly the set of names in
`all_columns`.  (The claim as frozen asserts the head property for every
`ViewConfig`; `C2_counterexample` shows an order beginning with another
existing column falsifies that.) -/
theorem C2_table_invariants (env : EvalEnv) (fmt : FormatOracle)
    (records : List Row) (view view2 : ViewConfig)
    (h : view.columns.order.head? = some "path" ∨ view.columns.order = []) :
    (apply_view env fmt records view).all_columns.head? = some "path" ∧
    rowsKeySetsMatch (apply_view env fmt records view2) = true := by
  constructor
  · rw [apply_view_eq]
    refine ordered_columns_head_path _ _ ?_ h
    exact columnsWithComputed_head view.columns.computed _ _ (collectColumns_head _)
  · rw [apply_view_eq]
    rw [rowsKeySetsMatch]
    rw [List.all_eq_true]
    intro r hr
    rw [keySetMatches_iff]
    intro a
    simp only at hr
    rw [apply_display_formats_eq_map] at hr
    rcases List.mem_map.1 hr with ⟨r1, hr1, hr1eq⟩
    have hkeys1 : rowKeys r = rowKeys r1 := by
      rw [← hr1eq, rowKeys_formatRow]
    have hr2 : r1 ∈ (normalize_rows records).1.map (computeRow env view2.columns.computed) :=
      mem_sort_rows view2 _ r1 hr1
    rcases List.mem_map.1 hr2 with ⟨r0, hr0, hr0eq⟩
    rw [hkeys1, ← hr0eq]
    rw [mem_rowKeys_computeRow, mem_ordered_columns, mem_columnsWithComputed]
    rw [normalize_rows_keyset records r0 hr0 a]

theorem C2_table_invariants_witness :
    (apply_view noEval pyFormatD
        [[("path", Value.str "a"), ("loss", Value.int 1)], [("extra", Value.bool true)]]
        ⟨"v", ".*", ⟨["path"], ["loss"], [], [], []⟩,
          ⟨[], ⟨some "loss", "asc"⟩⟩⟩).all_columns.head? = some "path" ∧
    rowsKeySetsMatch
      (apply_view noEval pyFormatD
        [[("path", Value.str "a"), ("loss", Value.int 1)], [("extra", Value.bool true)]]
        ⟨"w", ".*", ⟨["loss"], [], [], [], []⟩,
          ⟨[], ⟨some "loss", "asc"⟩⟩⟩) = true :=
  C2_table_invariants noEval pyFormatD
    [[("path", Value.str "a"), ("loss", Value.int 1)], [("extra", Value.bool true)]]
    ⟨"v", ".*", ⟨["path"], ["loss"], [], [], []⟩, ⟨[], ⟨some "loss", "asc"⟩⟩⟩
    ⟨"w", ".*", ⟨["loss"], [], [], [], []⟩, ⟨[], ⟨some "loss", "asc"⟩⟩⟩
    (Or.inl (by decide))

/-- The pinned-row comparison of `_sort_rows` line 103: order by
`pinned_index[row["path"]]`. -/
def pinLe (pinned_ids : List String) (r s : Row) : Bool :=
  Nat.ble (pinnedIdx pinned_ids (rowPathStr r)) (pinnedIdx pinned_ids (rowPathStr s))

/-- The non-pinned branch of `_sort_rows` (lines 105-108). -/
def sortOther (view : ViewConfig) (other : List Row) : List Row :=
  match view.rows.sort.sortBy with
  | Option.none => other
  | some field =>
      if field == "" then other
      else if view.rows.sort.direction == "desc" then
        isortBy (fun r s => rowSortLe field s r) other
      else
        isortBy (fun r s => rowSortLe field r s) other

theorem sort_rows_eq (view : ViewConfig) (rows : List Row) :
    sort_rows view rows =
      isortBy (pinLe view.rows.pinned_ids)
          (rows.filter (fun r => rowPinned view.rows.pinned_ids r)) ++
        sortOther view (rows.filter (fun r => !rowPinned view.rows.pinned_ids r)) := rfl

theorem mem_sortOther (view : ViewConfig) (l : List Row) (r : Row)
    (h : r ∈ sortOther view l) : r ∈ l := by
  unfold sortOther at h
  rcases hby : view.rows.sort.sortBy with _ | field
  · rwa [hby] at h
  · rw [hby] at h
    by_cases hf : field == ""
    · simpa [hf] using h
    · by_cases hd : view.rows.sort.direction == "desc"
      · simp only [hf, Bool.false_eq_true, if_false, hd, if_true] at h
        exact (mem_isortBy _ _ _).1 h
      · simp only [hf, hd, Bool.false_eq_true, if_false] at h
        exact (mem_isortBy _ _ _).1 h

/-- Bool-valued pairwise comparison check. -/
def boolPairwise (le : α → α → Bool) : List α → Bool
  | [] => true
  | x :: xs => xs.all (le x) && boolPairwise le xs

theorem boolPairwise_iff (le : α → α → Bool) (l : List α) :
    boolPairwise le l = true ↔ l.Pairwise (fun a b => le a b = true) := by
  induction l with
  | nil => simp [boolPairwise]
  | cons x xs ih =>
      simp [boolPairwise, List.pairwise_cons, ih, List.all_eq_true]

theorem dictGet_formatCellInRow_ne (fmt : FormatOracle) (colName tmpl k : String)
    (r : Row) (h : colName ≠ k) :
    dictGet (formatCellInRow fmt colName tmpl r) k = dictGet r k := by
  unfold formatCellInRow
  rcases hg : dictGet r colName with _ | v
  · rfl
  · cases v with
    | none => rfl
    | bool b => exact dictGet_dictSet_ne r colName k _ (fun hh => h hh.symm)
    | int n => exact dictGet_dictSet_ne r colName k _ (fun hh => h hh.symm)
    | float f => exact dictGet_dictSet_ne r colName k _ (fun hh => h hh.symm)
    | str s => exact dictGet_dictSet_ne r colName k _ (fun hh => h hh.symm)

theorem pyGet_path_formatRow (fmt : FormatOracle) (fm : List (String × String)) (r : Row)
    (hfmt : ∀ p ∈ fm, p.1 ≠ "path" ∨ p.2 = "") :
    pyGet (formatRow fmt fm r) "path" = pyGet r "path" := by
  induction fm generalizing r with
  | nil => rfl
  | cons p fm ih =>
      have hrest : ∀ q ∈ fm, q.1 ≠ "path" ∨ q.2 = "" :=
        fun q hq => hfmt q (List.mem_cons_of_mem p hq)
      by_cases hp : p.2 = ""
      · have step : formatRow fmt (p :: fm) r = formatRow fmt fm r := by
          simp [formatRow, hp]
        rw [step, ih r hrest]
      · have hne : p.1 ≠ "path" := by
          rcases hfmt p (List.mem_cons_self p fm) with h | h
          · exact h
          · exact absurd h hp
        have step : formatRow fmt (p :: fm) r =
            formatRow fmt fm (formatCellInRow fmt p.1 p.2 r) := by
          simp [formatRow, hp]
        rw [step, ih _ hrest]
        unfold pyGet
        rw [dictGet_formatCellInRow_ne fmt p.1 p.2 "path" r hne]

theorem rowPinned_formatRow (fmt : FormatOracle) (fm : List (String × String))
    (pids : List String) (r : Row)
    (hfmt : ∀ p ∈ fm, p.1 ≠ "path" ∨ p.2 = "") :
    rowPinned pids (formatRow fmt fm r) = rowPinned pids r := by
  unfold rowPinned
  rw [pyGet_path_formatRow fmt fm r hfmt]

theorem rowPathStr_formatRow (fmt : FormatOracle) (fm : List (String × String)) (r : Row)
    (hfmt : ∀ p ∈ fm, p.1 ≠ "path" ∨ p.2 = "") :
    rowPathStr (formatRow fmt fm r) = rowPathStr r := by
  unfold rowPathStr
  rw [pyGet_path_formatRow fmt fm r hfmt]

theorem pinLe_total (pids : List String) (r s : Row) :
    pinLe pids r s = true ∨ pinLe pids s r = true := by
  simp [pinLe, Nat.ble_eq]
  exact Nat.le_total _ _

theorem pinLe_trans (pids : List String) (r s t : Row)
    (h1 : pinLe pids r s = true) (h2 : pinLe pids s t = true) :
    pinLe pids r t = true := by
  simp [pinLe, Nat.ble_eq] at h1 h2 ⊢
  exact Nat.le_trans h1 h2

/-- C4 counterexample: pinning reads `path` values before display
formatting, while the claim speaks of the path values in the returned
Table.  With a `path` format template `{d:.2}` (string precision truncates
to two characters), paths `ab` and `bebe` render as `ab` and `be`;
`pinned_ids = ["be"]` pins neither original row, the ascending path sort
puts `ab` first — and in the final table the row whose path value `be`
occurs in `pinned_ids` sits after a row whose path value does not. -/
theorem C4_counterexample :
    (apply_view noEval pyFormatD
        [[("path", Value.str "ab")], [("path", Value.str "bebe")]]
        ⟨"v", ".*", ⟨["path"], [], [], [], [("path", "\x7bd:.2\x7d")]⟩,
          ⟨["be"], ⟨some "path", "asc"⟩⟩⟩).rows =
      [[("path", Value.str "ab")], [("path", Value.str "be")]] ∧
    rowPinned ["be"] [("path", Value.str "be")] = true ∧
    rowPinned ["be"] [("path", Value.str "ab")] = false := by
  refine ⟨by decide, by decide, by decide⟩

/-- C4 (amended): provided no non-empty format template is configured for
the `path` column (formatting runs after pinning and can otherwise rewrite
the displayed path values) and the pinned ids are duplicate-free (the spec
leaves duplicates unspecified), the rows of the returned Table whose path
value appears in `rows.pinned_ids` form a prefix — every pinned row precedes
every unpinned row — and that prefix is ordered by the position of each path
in `pinned_ids`, whatever the configured sort setting. -/
theorem C4_pinned_prefix (env : EvalEnv) (fmt : FormatOracle) (records : List Row)
    (view : ViewConfig)
    (hnd : view.rows.pinned_ids.Nodup)
    (hfmt : ∀ p ∈ view.columns.format, p.1 ≠ "path" ∨ p.2 = "") :
    (apply_view env fmt records view).rows =
      (apply_view env fmt records view).rows.filter
        (fun r => rowPinned view.rows.pinned_ids r) ++
      (apply_view env fmt records view).rows.filter
        (fun r => !rowPinned view.rows.pinned_ids r) ∧
    boolPairwise (pinLe view.rows.pinned_ids)
      ((apply_view env fmt records view).rows.filter
        (fun r => rowPinned view.rows.pinned_ids r)) = true := by
  rw [apply_view_eq]
  simp only
  rw [apply_display_formats_eq_map, sort_rows_eq, List.map_append]
  set pids := view.rows.pinned_ids with hpids
  set f := formatRow fmt view.columns.format with hf
  set rows2 := (normalize_rows records).1.map (computeRow env view.columns.computed) with hrows2
  set P := isortBy (pinLe pids) (rows2.filter (fun r => rowPinned pids r)) with hP
  set O := sortOther view (rows2.filter (fun r => !rowPinned pids r)) with hO
  have hPin : ∀ r ∈ P.map f, rowPinned pids r = true := by
    intro r hr
    rcases List.mem_map.1 hr with ⟨r1, hr1, hr1eq⟩
    have hr1f : r1 ∈ rows2.filter (fun r => rowPinned pids r) := (mem_isortBy _ _ _).1 hr1
    have := List.of_mem_filter hr1f
    rw [← hr1eq, rowPinned_formatRow fmt view.columns.format pids r1 hfmt]
    simpa using this
  have hOut : ∀ r ∈ O.map f, rowPinned pids r = false := by
    intro r hr
    rcases List.mem_map.1 hr with ⟨r1, hr1, hr1eq⟩
    have hr1f : r1 ∈ rows2.filter (fun r => !rowPinned pids r) := mem_sortOther view _ r1 hr1
    have := List.of_mem_filter hr1f
    rw [← hr1eq, rowPinned_formatRow fmt view.columns.format pids r1 hfmt]
    simpa using this
  have hfilP : (P.map f ++ O.map f).filter (fun r => rowPinned pids r) = P.map f := by
    rw [List.filter_append]
    rw [List.filter_eq_self.2 hPin]
    rw [List.filter_eq_nil.2 (fun r hr => by simp [hOut r hr])]
    simp
  have hfilO : (P.map f ++ O.map f).filter (fun r => !rowPinned pids r) = O.map f := by
    rw [List.filter_append]
    rw [List.filter_eq_nil.2 (fun r hr => by simp [hPin r hr])]
    rw [List.filter_eq_self.2 (fun r hr => by simp [hOut r hr])]
    simp
  refine ⟨by rw [hfilP, hfilO], ?_⟩
  rw [hfilP]
  rw [boolPairwise_iff, List.pairwise_map]
  have hpair : P.Pairwise (fun a b => pinLe pids a b = true) :=
    pairwise_isortBy (pinLe pids) _ (pinLe_total pids) (pinLe_trans pids)
  refine hpair.imp ?_
  intro a b hab
  unfold pinLe at hab ⊢
  rwa [rowPathStr_formatRow fmt view.columns.format a hfmt,
    rowPathStr_formatRow fmt view.columns.format b hfmt]

theorem C4_pinned_prefix_witness :
    (apply_view noEval pyFormatD
        [[("path", Value.str "b")], [("path", Value.str "a")], [("path", Value.str "c")]]
        ⟨"v", ".*", ⟨["path"], [], [], [], []⟩,
          ⟨["c", "a"], ⟨some "path", "asc"⟩⟩⟩).rows =
      (apply_view noEval pyFormatD
        [[("path", Value.str "b")], [("path", Value.str "a")], [("path", Value.str "c")]]
        ⟨"v", ".*", ⟨["path"], [], [], [], []⟩,
          ⟨["c", "a"], ⟨some "path", "asc"⟩⟩⟩).rows.filter
        (fun r => rowPinned ["c", "a"] r) ++
      (apply_view noEval pyFormatD
        [[("path", Value.str "b")], [("path", Value.str "a")], [("path", Value.str "c")]]
        ⟨"v", ".*", ⟨["path"], [], [], [], []⟩,
          ⟨["c", "a"], ⟨some "path", "asc"⟩⟩⟩).rows.filter
        (fun r => !rowPinned ["c", "a"] r) ∧
    boolPairwise (pinLe ["c", "a"])
      ((apply_view noEval pyFormatD
        [[("path", Value.str "b")], [("path", Value.str "a")], [("path", Value.str "c")]]
        ⟨"v", ".*", ⟨["path"], [], [], [], []⟩,
          ⟨["c", "a"], ⟨some "path", "asc"⟩⟩⟩).rows.filter
        (fun r => rowPinned ["c", "a"] r)) = true :=
  C4_pinned_prefix noEval pyFormatD
    [[("path", Value.str "b")], [("path", Value.str "a")], [("path", Value.str "c")]]
    ⟨"v", ".*", ⟨["path"], [], [], [], []⟩, ⟨["c", "a"], ⟨some "path", "asc"⟩⟩⟩
    (by decide) (by decide)

theorem insLe_congr (le le' : α → α → Bool) (a : α) (l : List α)
    (h : ∀ x y, le x y = le' x y) : insLe le a l = insLe le' a l := by
  induction l with
  | nil => rfl
  | cons b l ih => simp [insLe, h a b, ih]

theorem isortBy_congr (le le' : α → α → Bool) (l : List α)
    (h : ∀ x y, le x y = le' x y) : isortBy le l = isortBy le' l := by
  induction l with
  | nil => rfl
  | cons a l ih => simp [isortBy, ih, insLe_congr le le' a _ h]

theorem rowSortLe_total (field : String) (r s : Row) :
    rowSortLe field r s = true ∨ rowSortLe field s r = true :=
  keyLE_total _ _

theorem rowSortLe_trans (field : String) (r s t : Row)
    (h1 : rowSortLe field r s = true) (h2 : rowSortLe field s t = true) :
    rowSortLe field r t = true :=
  keyLE_trans _ _ _ h1 h2

theorem rowPinned_nil (r : Row) : rowPinned [] r = false := by
  unfold rowPinned
  rcases pyGet r "path" with _ | b | n | f | s <;> rfl

/-- Claim C5's own classification of the values that "compare first": numbers
(booleans excluded; NaN is a float, hence by the claim's usage a number) and
strings that parse entirely as optionally-signed decimal literals. -/
def claimNumericC5 (v : Value) : Bool :=
  match v with
  | Value.int _ => true
  | Value.float _ => true
  | Value.bool _ => false
  | Value.str s => numericRe (pyStrip s).data
  | Value.none => false

/-- The comparison tier claim C5 assigns to a value: 0 for its numerics,
2 for null, 1 for the rest. -/
def specTierC5 (v : Value) : ℕ :=
  if claimNumericC5 v then 0 else if v = Value.none then 2 else 1

/-- C5 counterexample: the claim classes a float NaN as a number, which
gives it comparison tier 0 and so would place a NaN row before any
string-tier row in an ascending sort; the code keys NaN as the string
`"nan"`, and sorting a NaN row against an `"abc"` row yields the `"abc"`
row first — a tier-1 value ahead of what the claim calls a tier-0 value. -/
theorem C5_counterexample :
    claimNumericC5 (Value.float PyFloat.nan) = true ∧
    sortable_value (Value.float PyFloat.nan) = SortKey.str "nan" ∧
    sort_rows ⟨"v", ".*", ⟨["path"], [], [], [], []⟩, ⟨[], ⟨some "x", "asc"⟩⟩⟩
        [[("path", Value.str "n"), ("x", Value.float PyFloat.nan)],
         [("path", Value.str "a"), ("x", Value.str "abc")]] =
      [[("path", Value.str "a"), ("x", Value.str "abc")],
       [("path", Value.str "n"), ("x", Value.float PyFloat.nan)]] ∧
    specTierC5 (Value.str "abc") = 1 ∧
    specTierC5 (Value.float PyFloat.nan) = 0 := by
  refine ⟨by decide, by decide, by decide, by decide, by decide⟩

/-- The amended tri-level key, written from the claim's words with the NaN
carve-out `C5_counterexample` forces: non-NaN numbers and decimal-literal
strings compare by numeric value, null sorts in the last tier, and all other
values — booleans, NaN, remaining strings — compare by their string form. -/
def specSortKeyC5 (v : Value) : SortKey :=
  match v with
  | Value.int n => SortKey.num ⟨n, 0⟩
  | Value.float (PyFloat.finite d) => SortKey.num d
  | Value.float PyFloat.nan => SortKey.str "nan"
  | Value.bool b => SortKey.str (pyStrOf (Value.bool b))
  | Value.none => SortKey.nullKey
  | Value.str s =>
      if numericRe (pyStrip s).data then SortKey.num (parseDecChars (pyStrip s).data)
      else SortKey.str s

/-- Whether the rows tying with each input row (equal tri-level keys on the
sort column) appear in the same order in `sorted` as in `rows`: the
stability check. -/
def tiesPreserved (field : String) (rows sorted : List Row) : Bool :=
  rows.all (fun r0 =>
    sorted.filter (fun r => rowSortLe field r r0 && rowSortLe field r0 r) ==
      rows.filter (fun r => rowSortLe field r r0 && rowSortLe field r0 r))

theorem sortable_value_spec (v : Value) : sortable_value v = specSortKeyC5 v := by
  cases v with
  | none => rfl
  | bool b => rfl
  | int n => rfl
  | float f => cases f <;> rfl
  | str s =>
      by_cases h : numericRe (pyStrip s).data
      · simp [sortable_value, to_float, specSortKeyC5, h]
      · simp [sortable_value, to_float, specSortKeyC5, h, pyStrOf]

/-- C5 (amended): whenever `rows.sort.by` names a column (ascending; with
the NaN carve-out of `C5_counterexample` applied): the code's sort key
equals the claim's tri-level key — non-NaN numbers and decimal-literal
strings by numeric magnitude, null last, booleans/NaN/other strings by
string form —, and the non-pinned rows, whatever the pinned configuration,
form the suffix of the output after the pinned prefix, sorted exactly as a
stable sort under that key: the suffix is pairwise ordered, ties retain
their input order, and numeric strings order by magnitude
(`"100","10","2"` ascending gives `2,10,100`). -/
theorem C5_tri_level_sort (view : ViewConfig) (rows : List Row) (field : String)
    (v : Value)
    (hby : view.rows.sort.sortBy = some field)
    (hf : ¬ field = "")
    (hdir : view.rows.sort.direction = "asc") :
    sortable_value v = specSortKeyC5 v ∧
    sort_rows view rows =
      isortBy (pinLe view.rows.pinned_ids)
          (rows.filter (fun r => rowPinned view.rows.pinned_ids r)) ++
        sortOther view (rows.filter (fun r => !rowPinned view.rows.pinned_ids r)) ∧
    sortOther view (rows.filter (fun r => !rowPinned view.rows.pinned_ids r)) =
      isortBy (fun r s =>
          keyLE (specSortKeyC5 (pyGet r field)) (specSortKeyC5 (pyGet s field)))
        (rows.filter (fun r => !rowPinned view.rows.pinned_ids r)) ∧
    boolPairwise (fun r s => rowSortLe field r s)
      (sortOther view (rows.filter (fun r => !rowPinned view.rows.pinned_ids r))) = true ∧
    tiesPreserved field (rows.filter (fun r => !rowPinned view.rows.pinned_ids r))
      (sortOther view (rows.filter (fun r => !rowPinned view.rows.pinned_ids r))) = true ∧
    sort_rows ⟨"v", ".*", ⟨["path"], [], [], [], []⟩, ⟨[], ⟨some "m", "asc"⟩⟩⟩
        [[("path", Value.str "a"), ("m", Value.str "100")],
         [("path", Value.str "b"), ("m", Value.str "10")],
         [("path", Value.str "c"), ("m", Value.str "2")]] =
      [[("path", Value.str "c"), ("m", Value.str "2")],
       [("path", Value.str "b"), ("m", Value.str "10")],
       [("path", Value.str "a"), ("m", Value.str "100")]] := by
  have hsortOther : ∀ l : List Row,
      sortOther view l = isortBy (fun r s => rowSortLe field r s) l := by
    intro l
    simp [sortOther, hby, hf, hdir]
  refine ⟨sortable_value_spec v, sort_rows_eq view rows, ?_, ?_, ?_, by decide⟩
  · rw [hsortOther]
    refine isortBy_congr _ _ _ (fun x y => ?_)
    unfold rowSortLe
    rw [sortable_value_spec, sortable_value_spec]
  · rw [hsortOther, boolPairwise_iff]
    exact pairwise_isortBy _ _ (rowSortLe_total field) (rowSortLe_trans field)
  · rw [hsortOther]
    unfold tiesPreserved
    rw [List.all_eq_true]
    intro r0 hr0
    have hfil := filter_isortBy (fun r s => rowSortLe field r s)
      (fun r => rowSortLe field r r0 && rowSortLe field r0 r)
      (rows.filter (fun r => !rowPinned view.rows.pinned_ids r))
      (fun x y hx hy => by
        simp only [Bool.and_eq_true] at hx hy
        exact rowSortLe_trans field x r0 y hx.1 hy.2)
    simpa using hfil

theorem C5_tri_level_sort_witness :
    sortable_value (Value.str " 2.5 ") = specSortKeyC5 (Value.str " 2.5 ") ∧
    sort_rows ⟨"v", ".*", ⟨["path"], [], [], [], []⟩, ⟨["d"], ⟨some "x", "asc"⟩⟩⟩
        [[("path", Value.str "a"), ("x", Value.str "1.0")],
         [("path", Value.str "b"), ("x", Value.none)],
         [("path", Value.str "c"), ("x", Value.int 1)],
         [("path", Value.str "d"), ("x", Value.bool true)]] =
      isortBy (pinLe ["d"])
          ([[("path", Value.str "a"), ("x", Value.str "1.0")],
            [("path", Value.str "b"), ("x", Value.none)],
            [("path", Value.str "c"), ("x", Value.int 1)],
            [("path", Value.str "d"), ("x", Value.bool true)]].filter
            (fun r => rowPinned ["d"] r)) ++
        sortOther ⟨"v", ".*", ⟨["path"], [], [], [], []⟩, ⟨["d"], ⟨some "x", "asc"⟩⟩⟩
          ([[("path", Value.str "a"), ("x", Value.str "1.0")],
            [("path", Value.str "b"), ("x", Value.none)],
            [("path", Value.str "c"), ("x", Value.int 1)],
            [("path", Value.str "d"), ("x", Value.bool true)]].filter
            (fun r => !rowPinned ["d"] r)) ∧
    sortOther ⟨"v", ".*", ⟨["path"], [], [], [], []⟩, ⟨["d"], ⟨some "x", "asc"⟩⟩⟩
        ([[("path", Value.str "a"), ("x", Value.str "1.0")],
          [("path", Value.str "b"), ("x", Value.none)],
          [("path", Value.str "c"), ("x", Value.int 1)],
          [("path", Value.str "d"), ("x", Value.bool true)]].filter
          (fun r => !rowPinned ["d"] r)) =
      isortBy (fun r s => keyLE (specSortKeyC5 (pyGet r "x")) (specSortKeyC5 (pyGet s "x")))
        ([[("path", Value.str "a"), ("x", Value.str "1.0")],
          [("path", Value.str "b"), ("x", Value.none)],
          [("path", Value.str "c"), ("x", Value.int 1)],
          [("path", Value.str "d"), ("x", Value.bool true)]].filter
          (fun r => !rowPinned ["d"] r)) ∧
    boolPairwise (fun r s => rowSortLe "x" r s)
      (sortOther ⟨"v", ".*", ⟨["path"], [], [], [], []⟩, ⟨["d"], ⟨some "x", "asc"⟩⟩⟩
        ([[("path", Value.str "a"), ("x", Value.str "1.0")],
          [("path", Value.str "b"), ("x", Value.none)],
          [("path", Value.str "c"), ("x", Value.int 1)],
          [("path", Value.str "d"), ("x", Value.bool true)]].filter
          (fun r => !rowPinned ["d"] r))) = true ∧
    tiesPreserved "x"
      ([[("path", Value.str "a"), ("x", Value.str "1.0")],
        [("path", Value.str "b"), ("x", Value.none)],
        [("path", Value.str "c"), ("x", Value.int 1)],
        [("path", Value.str "d"), ("x", Value.bool true)]].filter
        (fun r => !rowPinned ["d"] r))
      (sortOther ⟨"v", ".*", ⟨["path"], [], [], [], []⟩, ⟨["d"], ⟨some "x", "asc"⟩⟩⟩
        ([[("path", Value.str "a"), ("x", Value.str "1.0")],
          [("path", Value.str "b"), ("x", Value.none)],
          [("path", Value.str "c"), ("x", Value.int 1)],
          [("path", Value.str "d"), ("x", Value.bool true)]].filter
          (fun r => !rowPinned ["d"] r))) = true ∧
    sort_rows ⟨"v", ".*", ⟨["path"], [], [], [], []⟩, ⟨[], ⟨some "m", "asc"⟩⟩⟩
        [[("path", Value.str "a"), ("m", Value.str "100")],
         [("path", Value.str "b"), ("m", Value.str "10")],
         [("path", Value.str "c"), ("m", Value.str "2")]] =
      [[("path", Value.str "c"), ("m", Value.str "2")],
       [("path", Value.str "b"), ("m", Value.str "10")],
       [("path", Value.str "a"), ("m", Value.str "100")]] :=
  C5_tri_level_sort ⟨"v", ".*", ⟨["path"], [], [], [], []⟩, ⟨["d"], ⟨some "x", "asc"⟩⟩⟩
    [[("path", Value.str "a"), ("x", Value.str "1.0")],
     [("path", Value.str "b"), ("x", Value.none)],
     [("path", Value.str "c"), ("x", Value.int 1)],
     [("path", Value.str "d"), ("x", Value.bool true)]]
    "x" (Value.str " 2.5 ") rfl (by decide) rfl

theorem formatRow_append (fmt : FormatOracle) (l1 l2 : List (String × String)) (r : Row) :
    formatRow fmt (l1 ++ l2) r = formatRow fmt l2 (formatRow fmt l1 r) := by
  simp [formatRow, List.foldl_append]

theorem dictGet_formatRow_ne (fmt : FormatOracle) (fm : List (String × String))
    (r : Row) (k : String) (h : ∀ p ∈ fm, p.1 ≠ k) :
    dictGet (formatRow fmt fm r) k = dictGet r k := by
  induction fm generalizing r with
  | nil => rfl
  | cons p fm ih =>
      have hrest : ∀ q ∈ fm, q.1 ≠ k := fun q hq => h q (List.mem_cons_of_mem p hq)
      by_cases hp : p.2 = ""
      · have step : formatRow fmt (p :: fm) r = formatRow fmt fm r := by
          simp [formatRow, hp]
        rw [step, ih r hrest]
      · have step : formatRow fmt (p :: fm) r =
            formatRow fmt fm (formatCellInRow fmt p.1 p.2 r) := by
          simp [formatRow, hp]
        rw [step, ih _ hrest]
        exact dictGet_formatCellInRow_ne fmt p.1 p.2 k r (h p (List.mem_cons_self p fm))

theorem dictGet_formatCellInRow_self (fmt : FormatOracle) (c t : String) (r : Row) :
    dictGet (formatCellInRow fmt c t r) c =
      match dictGet r c with
      | Option.none => Option.none
      | some Value.none => some Value.none
      | some v => some (applyTemplate fmt t v) := by
  unfold formatCellInRow
  rcases hg : dictGet r c with _ | v
  · simp [hg]
  · cases v with
    | none => simp [hg]
    | bool b => simp [hg, dictGet_dictSet_self]
    | int n => simp [hg, dictGet_dictSet_self]
    | float f => simp [hg, dictGet_dictSet_self]
    | str s => simp [hg, dictGet_dictSet_self]

/-- Claim C1's coercion, as frozen: coerce only when the raw string value
itself matches the numeric-literal pattern `^[+-]?(\d+(\.\d*)?|\.\d+)$`;
any other value is passed to the template unchanged. -/
def claimCoerceC1 (v : Value) : Value :=
  match v with
  | Value.str s =>
      if numericRe s.data then
        if s.data.contains '.' then Value.float (PyFloat.finite (parseDecChars s.data))
        else Value.int (parseIntChars s.data)
      else v
  | _ => v

/-- C1 counterexample: the value `" 12 "` does not match the claim's pattern
(the pattern admits no spaces), so the claim passes it to the template
unchanged and `{d}` renders `" 12 "`; the code strips first
(`_coerce_format_value` line 131), coerces to the integer `12`, and the cell
renders `"12"`. -/
theorem C1_counterexample :
    numericRe " 12 ".data = false ∧
    claimCoerceC1 (Value.str " 12 ") = Value.str " 12 " ∧
    coerce_format_value (Value.str " 12 ") = Value.int 12 ∧
    (apply_view noEval pyFormatD [[("path", Value.str "p"), ("x", Value.str " 12 ")]]
        ⟨"v", ".*", ⟨["path"], [], [], [], [("x", "\x7bd\x7d")]⟩,
          ⟨[], ⟨Option.none, "asc"⟩⟩⟩).rows =
      [[("path", Value.str "p"), ("x", Value.str "12")]] ∧
    pyFormatD "\x7bd\x7d" (claimCoerceC1 (Value.str " 12 ")) = Except.ok " 12 " ∧
    Value.str "12" ≠ Value.str " 12 " := by
  refine ⟨by decide, by decide, by decide, by decide, by rfl, by decide⟩

/-- C1 (amended): for a view whose `columns.format` maps column `c` to a
non-empty template `t` (format keys are dict keys, hence duplicate-free):
formatting runs last — the table's rows are the per-row formatting image of
the sorted rows, so row order is fixed before formatting — and in every row
the cell of column `c` becomes: untouched when the column is absent or the
value is null; otherwise the template applied to the coerced value, a string
whose whitespace-stripped form matches the numeric-literal pattern being
coerced to an integer when the stripped form has no decimal point and to a
float otherwise, every other value passing to the template unchanged, with a
failing application yielding `"FORMAT_ERROR: <message>"`. -/
theorem C1_format_coercion (env : EvalEnv) (fmt : FormatOracle) (records : List Row)
    (view : ViewConfig) (c t : String) (r : Row) (s : String) (n : ℤ) (b : Bool)
    (f : PyFloat)
    (hnd : (view.columns.format.map Prod.fst).Nodup)
    (hmem : (c, t) ∈ view.columns.format)
    (ht : ¬ t = "") :
    (apply_view env fmt records view).rows =
      (sort_rows view
        ((normalize_rows records).1.map (computeRow env view.columns.computed))).map
        (formatRow fmt view.columns.format) ∧
    dictGet (formatRow fmt view.columns.format r) c =
      (match dictGet r c with
      | Option.none => Option.none
      | some Value.none => some Value.none
      | some v => some (applyTemplate fmt t v)) ∧
    applyTemplate fmt t (Value.str s) =
      (match fmt t (coerce_format_value (Value.str s)) with
      | Except.ok out => Value.str out
      | Except.error m => Value.str ("FORMAT_ERROR: " ++ m)) ∧
    coerce_format_value (Value.str s) =
      (if numericRe (pyStrip s).data then
        (if (pyStrip s).data.contains '.' then
          Value.float (PyFloat.finite (parseDecChars (pyStrip s).data))
        else Value.int (parseIntChars (pyStrip s).data))
      else Value.str s) ∧
    coerce_format_value (Value.int n) = Value.int n ∧
    coerce_format_value (Value.bool b) = Value.bool b ∧
    coerce_format_value (Value.float f) = Value.float f ∧
    coerce_format_value Value.none = Value.none := by
  refine ⟨?_, ?_, rfl, rfl, rfl, rfl, rfl, rfl⟩
  · rw [apply_view_eq, apply_display_formats_eq_map]
  · rcases List.append_of_mem hmem with ⟨l1, l2, hsplit⟩
    have hkeys : c ∉ l1.map Prod.fst ∧ c ∉ l2.map Prod.fst := by
      rw [hsplit] at hnd
      simp only [List.map_append, List.map_cons] at hnd
      rcases List.nodup_append.1 hnd with ⟨h1, h2, h3⟩
      rcases List.nodup_cons.1 h2 with ⟨h4, _⟩
      exact ⟨fun hc => h3 hc (List.mem_cons_self c _), h4⟩
    rw [hsplit, formatRow_append]
    have step : formatRow fmt ((c, t) :: l2) (formatRow fmt l1 r) =
        formatRow fmt l2 (formatCellInRow fmt c t (formatRow fmt l1 r)) := by
      simp [formatRow, ht]
    rw [step]
    rw [dictGet_formatRow_ne fmt l2 _ c
      (fun p hp => fun hh => hkeys.2 (hh ▸ List.mem_map_of_mem Prod.fst hp))]
    rw [dictGet_formatCellInRow_self]
    rw [dictGet_formatRow_ne fmt l1 r c
      (fun p hp => fun hh => hkeys.1 (hh ▸ List.mem_map_of_mem Prod.fst hp))]

theorem C1_format_coercion_witness :
    (apply_view noEval pyFormatD [[("path", Value.str "p"), ("x", Value.str "3.5")]]
        ⟨"v", ".*", ⟨["path"], [], [], [], [("x", "\x7bd\x7d")]⟩,
          ⟨[], ⟨Option.none, "asc"⟩⟩⟩).rows =
      (sort_rows
        ⟨"v", ".*", ⟨["path"], [], [], [], [("x", "\x7bd\x7d")]⟩,
          ⟨[], ⟨Option.none, "asc"⟩⟩⟩
        ((normalize_rows [[("path", Value.str "p"), ("x", Value.str "3.5")]]).1.map
          (computeRow noEval []))).map
        (formatRow pyFormatD [("x", "\x7bd\x7d")]) ∧
    dictGet (formatRow pyFormatD [("x", "\x7bd\x7d")] [("x", Value.str " 7 ")]) "x" =
      (match dictGet [("x", Value.str " 7 ")] "x" with
      | Option.none => Option.none
      | some Value.none => some Value.none
      | some v => some (applyTemplate pyFormatD "\x7bd\x7d" v)) ∧
    applyTemplate pyFormatD "\x7bd\x7d" (Value.str " 7 ") =
      (match pyFormatD "\x7bd\x7d" (coerce_format_value (Value.str " 7 ")) with
      | Except.ok out => Value.str out
      | Except.error m => Value.str ("FORMAT_ERROR: " ++ m)) ∧
    coerce_format_value (Value.str " 7 ") =
      (if numericRe (pyStrip " 7 ").data then
        (if (pyStrip " 7 ").data.contains '.' then
          Value.float (PyFloat.finite (parseDecChars (pyStrip " 7 ").data))
        else Value.int (parseIntChars (pyStrip " 7 ").data))
      else Value.str " 7 ") ∧
    coerce_format_value (Value.int 5) = Value.int 5 ∧
    coerce_format_value (Value.bool true) = Value.bool true ∧
    coerce_format_value (Value.float PyFloat.nan) = Value.float PyFloat.nan ∧
    coerce_format_value Value.none = Value.none :=
  C1_format_coercion noEval pyFormatD [[("path", Value.str "p"), ("x", Value.str "3.5")]]
    ⟨"v", ".*", ⟨["path"], [], [], [], [("x", "\x7bd\x7d")]⟩, ⟨[], ⟨Option.none, "asc"⟩⟩⟩
    "x" "\x7bd\x7d" [("x", Value.str " 7 ")] " 7 " 5 true PyFloat.nan
    (by decide) (by decide) (by decide)

/-- C7: data-level errors are contained per cell and never abort the render.
A failing computed evaluation turns exactly that row's cell in that column
into `"ERROR: <message>"`; the computed stage is a per-row map, so no other
row is affected, and columns not named by a computed column keep their
values.  A failing template application turns exactly that cell into
`"FORMAT_ERROR: <message>"`; the format stage is also a per-row map.  And
`apply` still returns a complete table: one row per input record. -/
theorem C7_error_containment (env : EvalEnv) (fmt : FormatOracle) (records : List Row)
    (view : ViewConfig) (cs : List ComputedColumn) (rows : List Row) (cols : List String)
    (c : ComputedColumn) (r : Row) (m : String) (k : String)
    (fm : List (String × String)) (colName t : String) (r2 : Row) (v : Value) (m2 : String)
    (hm : env.evalExpr c.expr r = Except.error m)
    (hk : ∀ c2 ∈ cs, c2.name ≠ k)
    (hnd2 : (fm.map Prod.fst).Nodup)
    (hmem2 : (colName, t) ∈ fm)
    (ht : ¬ t = "")
    (hv : dictGet r2 colName = some v)
    (hvn : v ≠ Value.none)
    (hfail : fmt t (coerce_format_value v) = Except.error m2) :
    evalCell env c r = Value.str ("ERROR: " ++ m) ∧
    dictGet (computeRow env [c] r) c.name = some (Value.str ("ERROR: " ++ m)) ∧
    (apply_computed_columns env cs rows cols).1 = rows.map (computeRow env cs) ∧
    dictGet (computeRow env cs r) k = dictGet r k ∧
    dictGet (formatRow fmt fm r2) colName = some (Value.str ("FORMAT_ERROR: " ++ m2)) ∧
    apply_display_formats fmt fm rows = rows.map (formatRow fmt fm) ∧
    (apply_view env fmt records view).rows.length = records.length := by
  have h1 : evalCell env c r = Value.str ("ERROR: " ++ m) := by
    unfold evalCell
    rw [hm]
  refine ⟨h1, ?_, ?_, ?_, ?_, ?_, ?_⟩
  · have step : computeRow env [c] r = dictSet r c.name (evalCell env c r) := rfl
    rw [step, h1]
    exact dictGet_dictSet_self r c.name _
  · rw [apply_computed_columns_eq]
  · exact dictGet_computeRow_ne env cs r k hk
  · rcases List.append_of_mem hmem2 with ⟨l1, l2, hsplit⟩
    have hkeys : colName ∉ l1.map Prod.fst ∧ colName ∉ l2.map Prod.fst := by
      rw [hsplit] at hnd2
      simp only [List.map_append, List.map_cons] at hnd2
      rcases List.nodup_append.1 hnd2 with ⟨_, h2, h3⟩
      rcases List.nodup_cons.1 h2 with ⟨h4, _⟩
      exact ⟨fun hc => h3 hc (List.mem_cons_self colName _), h4⟩
    rw [hsplit, formatRow_append]
    have step : formatRow fmt ((colName, t) :: l2) (formatRow fmt l1 r2) =
        formatRow fmt l2 (formatCellInRow fmt colName t (formatRow fmt l1 r2)) := by
      simp [formatRow, ht]
    rw [step]
    rw [dictGet_formatRow_ne fmt l2 _ colName
      (fun p hp => fun hh => hkeys.2 (hh ▸ List.mem_map_of_mem Prod.fst hp))]
    rw [dictGet_formatCellInRow_self]
    rw [dictGet_formatRow_ne fmt l1 r2 colName
      (fun p hp => fun hh => hkeys.1 (hh ▸ List.mem_map_of_mem Prod.fst hp))]
    rw [hv]
    have happ : applyTemplate fmt t v = Value.str ("FORMAT_ERROR: " ++ m2) := by
      unfold applyTemplate
      rw [hfail]
    cases v with
    | none => exact absurd rfl hvn
    | bool b => simpa using happ
    | int n => simpa using happ
    | float f => simpa using happ
    | str s => simpa using happ
  · exact apply_display_formats_eq_map fmt fm rows
  · rw [apply_view_eq]
    simp only
    rw [apply_display_formats_eq_map, List.length_map, length_sort_rows, List.length_map,
      normalize_rows_length]

theorem C7_error_containment_witness :
    evalCell noEval ⟨"bad", "row[\"missing\"] + 1"⟩ [("path", Value.str "a")] =
      Value.str ("ERROR: " ++ "name not defined") ∧
    dictGet (computeRow noEval [⟨"bad", "row[\"missing\"] + 1"⟩] [("path", Value.str "a")])
      "bad" = some (Value.str ("ERROR: " ++ "name not defined")) ∧
    (apply_computed_columns noEval [⟨"bad", "row[\"missing\"] + 1"⟩]
        [[("path", Value.str "a")]] ["path"]).1 =
      [[("path", Value.str "a")]].map (computeRow noEval [⟨"bad", "row[\"missing\"] + 1"⟩]) ∧
    dictGet (computeRow noEval [⟨"bad", "row[\"missing\"] + 1"⟩] [("path", Value.str "a")])
      "path" = dictGet [("path", Value.str "a")] "path" ∧
    dictGet (formatRow pyFormatD [("x", "\x7bd:.2\x7d")] [("x", Value.int 3)]) "x" =
      some (Value.str ("FORMAT_ERROR: " ++ "Precision not allowed in integer format specifier")) ∧
    apply_display_formats pyFormatD [("x", "\x7bd:.2\x7d")] [[("path", Value.str "a")]] =
      [[("path", Value.str "a")]].map (formatRow pyFormatD [("x", "\x7bd:.2\x7d")]) ∧
    (apply_view noEval pyFormatD [[("path", Value.str "a")]]
        ⟨"v", ".*", ⟨["path"], [], [], [⟨"bad", "row[\"missing\"] + 1"⟩], [("x", "\x7bd:.2\x7d")]⟩,
          ⟨[], ⟨Option.none, "asc"⟩⟩⟩).rows.length = [[("path", Value.str "a")]].length :=
  C7_error_containment noEval pyFormatD [[("path", Value.str "a")]]
    ⟨"v", ".*", ⟨["path"], [], [], [⟨"bad", "row[\"missing\"] + 1"⟩], [("x", "\x7bd:.2\x7d")]⟩,
      ⟨[], ⟨Option.none, "asc"⟩⟩⟩
    [⟨"bad", "row[\"missing\"] + 1"⟩] [[("path", Value.str "a")]] ["path"]
    ⟨"bad", "row[\"missing\"] + 1"⟩ [("path", Value.str "a")] "name not defined" "path"
    [("x", "\x7bd:.2\x7d")] "x" "\x7bd:.2\x7d" [("x", Value.int 3)] (Value.int 3)
    "Precision not allowed in integer format specifier"
    rfl (by decide) (by decide) (by decide) (by decide) rfl (by decide) rfl

theorem computeRow_congr (env1 env2 : EvalEnv) (cs : List ComputedColumn) (r : Row)
    (hagree : ∀ c ∈ cs, ∀ r2 : Row, env1.evalExpr c.expr r2 = env2.evalExpr c.expr r2) :
    computeRow env1 cs r = computeRow env2 cs r := by
  induction cs generalizing r with
  | nil => rfl
  | cons c cs ih =>
      have step1 : computeRow env1 (c :: cs) r =
          computeRow env1 cs (dictSet r c.name (evalCell env1 c r)) := rfl
      have step2 : computeRow env2 (c :: cs) r =
          computeRow env2 cs (dictSet r c.name (evalCell env2 c r)) := rfl
      have hcell : evalCell env1 c r = evalCell env2 c r := by
        unfold evalCell
        rw [hagree c (List.mem_cons_self c cs) r]
      rw [step1, step2, hcell, ih _ (fun c2 hc2 r2 => hagree c2 (List.mem_cons_of_mem c hc2) r2)]

/-- C8 counterexample: a view with a computed column whose expression reads
ambient process state (reachable through the `__builtins__` mapping passed to
eval, `view_engine.py` line 57) yields different Tables on two calls with
equal `records` and `view` arguments — the snapshots `constEval "a"` and
`constEval "b"` model the process state at the two calls. -/
theorem C8_counterexample :
    apply_view (constEval (Value.str "a")) pyFormatD [[("path", Value.str "p")]]
        ⟨"v", ".*", ⟨["path"], [], [], [⟨"c", "__import__(\"time\").time()"⟩], []⟩,
          ⟨[], ⟨Option.none, "asc"⟩⟩⟩ ≠
      apply_view (constEval (Value.str "b")) pyFormatD [[("path", Value.str "p")]]
        ⟨"v", ".*", ⟨["path"], [], [], [⟨"c", "__import__(\"time\").time()"⟩], []⟩,
          ⟨[], ⟨Option.none, "asc"⟩⟩⟩ := by
  decide

/-- C8 (amended): the engine operates on copies — each normalized row
preserves every binding of its input record, the record list itself being
read-only in the model — and the result is determined by the records, the
view, the formatting primitive and the evaluation behaviour of the view's
computed expressions: two calls whose computed expressions evaluate
identically (in particular, any two calls when the view has no computed
columns) return equal Tables.  `C8_counterexample` shows equality of the
`records` and `view` arguments alone does not suffice. -/
theorem C8_copies_and_determinism (env1 env2 : EvalEnv) (fmt : FormatOracle)
    (records : List Row) (view : ViewConfig) (i : ℕ) (k : String) (v : Value)
    (hi : i < records.length) (hi2 : i < (normalize_rows records).1.length)
    (hagree : ∀ c ∈ view.columns.computed, ∀ r : Row,
      env1.evalExpr c.expr r = env2.evalExpr c.expr r)
    (hget : dictGet (records.get ⟨i, hi⟩) k = some v) :
    apply_view env1 fmt records view = apply_view env2 fmt records view ∧
    dictGet ((normalize_rows records).1.get ⟨i, hi2⟩) k = some v := by
  constructor
  · rw [apply_view_eq, apply_view_eq]
    have hmap : (normalize_rows records).1.map (computeRow env1 view.columns.computed) =
        (normalize_rows records).1.map (computeRow env2 view.columns.computed) :=
      List.map_congr_left (fun r _ => computeRow_congr env1 env2 _ r hagree)
    rw [hmap]
  · have hrec : (normalize_rows records).1.get ⟨i, hi2⟩ =
        backfillRow (collectColumns (records.map copyRecord))
          (copyRecord (records.get ⟨i, hi⟩)) := by
      simp [normalize_rows, List.get_map]
    rw [hrec]
    refine dictGet_backfillRow_of_some _ _ k v ?_
    exact dictGet_dictSetDefault_of_some _ "path" k Value.none v hget

theorem C8_copies_and_determinism_witness :
    apply_view (constEval (Value.str "a")) pyFormatD
        [[("path", Value.str "p"), ("loss", Value.int 2)]]
        ⟨"v", ".*", ⟨["path"], [], [], [], []⟩, ⟨[], ⟨some "loss", "desc"⟩⟩⟩ =
      apply_view (constEval (Value.str "b")) pyFormatD
        [[("path", Value.str "p"), ("loss", Value.int 2)]]
        ⟨"v", ".*", ⟨["path"], [], [], [], []⟩, ⟨[], ⟨some "loss", "desc"⟩⟩⟩ ∧
    dictGet ((normalize_rows [[("path", Value.str "p"), ("loss", Value.int 2)]]).1.get
        ⟨0, by decide⟩) "loss" = some (Value.int 2) :=
  C8_copies_and_determinism (constEval (Value.str "a")) (constEval (Value.str "b"))
    pyFormatD [[("path", Value.str "p"), ("loss", Value.int 2)]]
    ⟨"v", ".*", ⟨["path"], [], [], [], []⟩, ⟨[], ⟨some "loss", "desc"⟩⟩⟩
    0 "loss" (Value.int 2) (by decide) (by decide)
    (fun c hc r => by simp at hc) (by decide)
